import Mathlib

/-!
Verification of cut_utility: field selection over delimited records

A shallow embedding of `main.go` (`parseFieldRanges`, `getFields`,
`processLine`) together with the Go standard-library functions these call
(`strings.Contains`, `strings.Split`, `strings.Join`, `strings.TrimSpace`,
`strconv.Atoi`).

Conventions of the embedding.

* A Go `string` is a `List Char`: the sequence of code points of a valid
  UTF-8 text.  Literal substring search, splitting and joining on such texts
  agree with the byte-level operations of Go.
* A Go `int` is a Lean `Int` lying in `[minInt, maxInt]` (64-bit platform).
  Arithmetic that Go performs on an `int` is followed by `wrapInt`, the
  two's-complement wrap-around.
* The counting loop of `getFields` need not terminate (its counter wraps
  around when a range ends at `maxInt`), so it is given a step budget and
  returns `none` when the budget is exhausted.
-/

namespace CutUtility

/-! ## Machine integers -/

/-- Largest value of a Go `int` on a 64-bit platform (`math.MaxInt64`). -/
def maxInt : Int := 9223372036854775807

/-- Smallest value of a Go `int` on a 64-bit platform (`math.MinInt64`). -/
def minInt : Int := -9223372036854775808

/-- Two's-complement wrap-around of an integer result into the range of `int`. -/
def wrapInt (x : Int) : Int :=
  (x + 9223372036854775808) % 18446744073709551616 - 9223372036854775808

/-- The value is representable as a Go `int`. -/
def isInt (x : Int) : Prop := minInt ≤ x ∧ x ≤ maxInt

instance (x : Int) : Decidable (isInt x) := by
  unfold isInt; exact inferInstance

/-! ## Go standard library: package `strings` -/

namespace strings

/-- Go `strings.Index(s, substr)`: position of the first occurrence of
`substr` in `s`; `none` stands for the result `-1`. -/
def Index : List Char → List Char → Option Nat
  | [], substr => if substr.isPrefixOf [] then some 0 else none
  | c :: cs, substr =>
    if substr.isPrefixOf (c :: cs) then some 0
    else (Index cs substr).map (· + 1)

/-- Go `strings.Contains(s, substr)`, which is `Index(s, substr) >= 0`. -/
def Contains (s substr : List Char) : Bool := (Index s substr).isSome

/-- The loop of Go `genSplit`: cut at the first occurrence of `sep`, continue
behind it.  The first argument bounds the number of cuts. -/
def genSplit : Nat → List Char → List Char → List (List Char)
  | 0, s, _ => [s]
  | n + 1, s, sep =>
    match Index s sep with
    | none => [s]
    | some m => s.take m :: genSplit n (s.drop (m + sep.length)) sep

/-- Go `strings.Split(s, sep)`: all substrings of `s` separated by `sep`.
With an empty `sep` the text is cut after every code point (`explode`).  A
non-empty `sep` occurs at most `len(s)` times, which bounds the loop. -/
def Split (s sep : List Char) : List (List Char) :=
  if sep = [] then s.map (fun c => [c]) else genSplit s.length s sep

/-- Go `strings.Join(elems, sep)`. -/
def Join : List (List Char) → List Char → List Char
  | [], _ => []
  | [a], _ => a
  | a :: b :: rest, sep => a ++ sep ++ Join (b :: rest) sep

/-- Go `unicode.IsSpace`: the code points with the White_Space property. -/
def isSpace (c : Char) : Bool :=
  let n := c.toNat
  n = 0x20 || (0x09 ≤ n && n ≤ 0x0D) || n = 0x85 || n = 0xA0 || n = 0x1680 ||
  (0x2000 ≤ n && n ≤ 0x200A) || n = 0x2028 || n = 0x2029 || n = 0x202F ||
  n = 0x205F || n = 0x3000

/-- Go `strings.TrimSpace(s)`: `s` without leading and trailing white space. -/
def TrimSpace (s : List Char) : List Char :=
  ((s.dropWhile isSpace).reverse.dropWhile isSpace).reverse

end strings

/-! ## Go standard library: package `strconv` -/

namespace strconv

/-- The digit loop of Go `ParseUint` in base 10: `n = n*10 + d` for every
byte, which must be one of `0` to `9`; `none` is the syntax error. -/
def parseDigits : List Char → Nat → Option Nat
  | [], n => some n
  | c :: cs, n =>
    if 48 ≤ c.toNat ∧ c.toNat ≤ 57 then parseDigits cs (n * 10 + (c.toNat - 48))
    else none

/-- Go `strconv.Atoi(s)`: an optional sign followed by one or more decimal
digits, denoting a value that fits an `int`.  `none` stands for a non-nil
error (syntax error or value out of range). -/
def Atoi (s : List Char) : Option Int :=
  match s with
  | [] => none
  | c :: cs =>
    let neg : Bool := c = '-'
    let digits := if c = '+' ∨ c = '-' then cs else c :: cs
    if digits = [] then none
    else
      match parseDigits digits 0 with
      | none => none
      | some un =>
        if neg then
          if (un : Int) > 9223372036854775808 then none else some (-(un : Int))
        else
          if (un : Int) ≥ 9223372036854775808 then none else some (un : Int)

end strconv

/-! ## The program -/

/-- Go `type FieldRange struct { Start int; End int }`. -/
structure FieldRange where
  Start : Int
  End : Int
  deriving DecidableEq, Repr

/-- Go `type Config struct`. -/
structure Config where
  Fields : List Char
  Delimiter : List Char
  Separated : Bool
  FieldRanges : List FieldRange

/-- The errors of `parseFieldRanges`, one constructor per `fmt.Errorf` call,
carrying the value that the message formats. -/
inductive ParseError where
  /-- "пустая строка полей" -/
  | emptyFields
  /-- "неверный формат диапазона: %s" with the trimmed token -/
  | badRangeFormat (part : List Char)
  /-- "неверный номер начала диапазона: %s" with `rangeParts[0]` -/
  | badRangeStart (text : List Char)
  /-- "неверный номер конца диапазона: %s" with `rangeParts[1]` -/
  | badRangeEnd (text : List Char)
  /-- "начало диапазона больше конца: %s" with the trimmed token -/
  | startAfterEnd (part : List Char)
  /-- "неверный номер поля: %s" with the trimmed token -/
  | badFieldNumber (part : List Char)
  /-- "номер поля должен быть положительным: %d" with the parsed number -/
  | nonPositiveField (fieldNum : Int)
  deriving DecidableEq, Repr

deriving instance DecidableEq for Except

/-- The loop of `parseFieldRanges`, `for _, part := range parts`, with the
slice `ranges` built so far. -/
def parseParts : List (List Char) → List FieldRange →
    Except ParseError (List FieldRange)
  | [], ranges => .ok ranges
  | part0 :: rest, ranges =>
    let part := strings.TrimSpace part0
    if part = [] then parseParts rest ranges
    else if strings.Contains part ['-'] then
      let rangeParts := strings.Split part ['-']
      if rangeParts.length ≠ 2 then .error (.badRangeFormat part)
      else
        match strconv.Atoi (strings.TrimSpace (rangeParts.getD 0 [])) with
        | none => .error (.badRangeStart (rangeParts.getD 0 []))
        | some start =>
          match strconv.Atoi (strings.TrimSpace (rangeParts.getD 1 [])) with
          | none => .error (.badRangeEnd (rangeParts.getD 1 []))
          | some stop =>
            if start > stop then .error (.startAfterEnd part)
            else parseParts rest (ranges ++ [⟨start, stop⟩])
    else
      match strconv.Atoi part with
      | none => .error (.badFieldNumber part)
      | some fieldNum =>
        if fieldNum < 1 then .error (.nonPositiveField fieldNum)
        else parseParts rest (ranges ++ [⟨fieldNum, fieldNum⟩])

/-- Go `parseFieldRanges(fields)`. -/
def parseFieldRanges (fields : List Char) : Except ParseError (List FieldRange) :=
  if fields = [] then .error .emptyFields
  else parseParts (strings.Split fields [',']) []

/-- The inner loop of `getFields`, `for i := r.Start; i <= r.End; i++`, with
its body.  `seen` is the map `seen`, absent keys reading `false`.  The first
argument is the step budget: one unit per evaluation of the loop condition. -/
def getFieldsLoop : Nat → Int → Int → List Int → (Int → Bool) →
    Option (List Int × (Int → Bool))
  | 0, _, _, _, _ => none
  | fuel + 1, i, e, fields, seen =>
    if i ≤ e then
      if !seen i then
        getFieldsLoop fuel (wrapInt (i + 1)) e (fields ++ [i])
          (fun j => if j = i then true else seen j)
      else
        getFieldsLoop fuel (wrapInt (i + 1)) e fields seen
    else some (fields, seen)

/-- The outer loop of `getFields`, `for _, r := range ranges`. -/
def getFieldsRanges (fuel : Nat) : List FieldRange → List Int → (Int → Bool) →
    Option (List Int)
  | [], fields, _ => some fields
  | r :: rs, fields, seen =>
    match getFieldsLoop fuel r.Start r.End fields seen with
    | none => none
    | some (fields1, seen1) => getFieldsRanges fuel rs fields1 seen1

/-- Go `getFields(ranges)`.  Each inner loop may take `fuel` steps; `none`
means that some inner loop did not finish within them. -/
def getFields (fuel : Nat) (ranges : List FieldRange) : Option (List Int) :=
  getFieldsRanges fuel ranges [] (fun _ => false)

/-- The selection loop of `processLine`, `for _, fieldNum := range fieldsToShow`. -/
def selectParts (parts : List (List Char)) : List Int → List (List Char) →
    List (List Char)
  | [], result => result
  | fieldNum :: rest, result =>
    let index := wrapInt (fieldNum - 1)
    if 0 ≤ index ∧ index < parts.length then
      selectParts parts rest (result ++ [parts.getD index.toNat []])
    else
      selectParts parts rest result

/-- Go `processLine(line, config)`; `none` when `getFields` does not finish
within `fuel` steps per range. -/
def processLine (fuel : Nat) (line : List Char) (config : Config) :
    Option (List Char × Bool) :=
  if config.Separated && !strings.Contains line config.Delimiter then
    some ([], false)
  else
    let parts := strings.Split line config.Delimiter
    if config.FieldRanges.length = 0 then
      some (line, true)
    else
      match getFields fuel config.FieldRanges with
      | none => none
      | some fieldsToShow =>
        some (strings.Join (selectParts parts fieldsToShow []) config.Delimiter, true)

/-! ## Notions used to state the properties -/

/-- The integers `i, i+1, …`, `n` of them, in ascending order. -/
def countFrom (i : Int) : Nat → List Int
  | 0 => []
  | n + 1 => i :: countFrom (i + 1) n

/-- The members `Start, Start+1, …, End` of a range in ascending order (none
when `Start > End`). -/
def rangeMembers (r : FieldRange) : List Int :=
  countFrom r.Start (r.End + 1 - r.Start).toNat

/-- The concatenation, in list order, of the members of every range. -/
def allMembers : List FieldRange → List Int
  | [] => []
  | r :: rs => rangeMembers r ++ allMembers rs

/-- A list with every value kept at its first occurrence only. -/
def firstOccurrences : List Int → List Int
  | [] => []
  | x :: xs => x :: (firstOccurrences xs).filter (fun y => decide (y ≠ x))

/-- Appending a value unless it is already present. -/
def pushNew (fields : List Int) (x : Int) : List Int :=
  if x ∈ fields then fields else fields ++ [x]

/-- The parts `parts[p-1]`, in order, for the positions `p` with
`1 ≤ p ≤ len(parts)`; every other position contributes nothing. -/
def selectedParts (parts : List (List Char)) (positions : List Int) : List (List Char) :=
  (positions.filter (fun p => decide (1 ≤ p ∧ p ≤ (parts.length : Int)))).map
    (fun p => parts.getD (p - 1).toNat [])

/-- The record is suppressed: the require-delimiter flag is set and the
record does not contain the delimiter. -/
def suppressed (line : List Char) (config : Config) : Prop :=
  config.Separated = true ∧ strings.Contains line config.Delimiter = false

instance (line : List Char) (config : Config) : Decidable (suppressed line config) := by
  unfold suppressed; exact inferInstance

/-- The plain decimal text of a natural number, as `strconv.Itoa` and
`fmt.Sprint` write it. -/
def decimal (n : Nat) : List Char := Nat.toDigits 10 n

/-- The character is one of the decimal digits `0` to `9`. -/
def isDigit (c : Char) : Prop := 48 ≤ c.toNat ∧ c.toNat ≤ 57

/-- What one token of the field text contributes in `parseFieldRanges`: an
error, nothing (an empty token) or one range.  It is the body of the loop of
`parseParts`, see `parseParts_cons`. -/
def parseToken (part0 : List Char) : Except ParseError (Option FieldRange) :=
  let part := strings.TrimSpace part0
  if part = [] then .ok none
  else if strings.Contains part ['-'] then
    let rangeParts := strings.Split part ['-']
    if rangeParts.length ≠ 2 then .error (.badRangeFormat part)
    else
      match strconv.Atoi (strings.TrimSpace (rangeParts.getD 0 [])) with
      | none => .error (.badRangeStart (rangeParts.getD 0 []))
      | some start =>
        match strconv.Atoi (strings.TrimSpace (rangeParts.getD 1 [])) with
        | none => .error (.badRangeEnd (rangeParts.getD 1 []))
        | some stop =>
          if start > stop then .error (.startAfterEnd part)
          else .ok (some ⟨start, stop⟩)
  else
    match strconv.Atoi part with
    | none => .error (.badFieldNumber part)
    | some fieldNum =>
      if fieldNum < 1 then .error (.nonPositiveField fieldNum)
      else .ok (some ⟨fieldNum, fieldNum⟩)

/-- The counting loop over a range finishes in Go: the range is empty, or it
ends below `maxInt`, so that the counter never wraps around. -/
def loopFinishes (r : FieldRange) : Prop :=
  isInt r.Start ∧ isInt r.End ∧ (r.Start ≤ r.End → r.End < maxInt)

instance (r : FieldRange) : Decidable (loopFinishes r) := by
  unfold loopFinishes; exact inferInstance

/-- A step budget that suffices for the counting loops of all given ranges. -/
def enoughFuel : List FieldRange → Nat
  | [] => 1
  | r :: rs => max ((r.End + 1 - r.Start).toNat + 1) (enoughFuel rs)

/-! ## Machine integers: lemmas -/

theorem wrapInt_of_isInt (x : Int) (h : isInt x) : wrapInt x = x := by
  unfold isInt minInt maxInt at h
  unfold wrapInt
  omega

theorem wrapInt_le_maxInt (x : Int) : wrapInt x ≤ maxInt := by
  unfold wrapInt maxInt
  omega

theorem minInt_le_wrapInt (x : Int) : minInt ≤ wrapInt x := by
  unfold wrapInt minInt
  omega

/-! ## `getFields`: lemmas -/

theorem mem_countFrom (n : Nat) : ∀ (i j : Int), j ∈ countFrom i n ↔ i ≤ j ∧ j < i + n := by
  induction n with
  | zero => intro i j; simp [countFrom]
  | succ n ih =>
    intro i j
    simp only [countFrom, List.mem_cons, ih]
    push_cast
    omega

theorem mem_pushNew (fields : List Int) (x j : Int) :
    j ∈ pushNew fields x ↔ j ∈ fields ∨ j = x := by
  unfold pushNew
  split
  · constructor
    · intro h; exact Or.inl h
    · rintro (h | h)
      · exact h
      · subst h; assumption
  · simp

theorem nodup_pushNew (fields : List Int) (x : Int) (h : fields.Nodup) :
    (pushNew fields x).Nodup := by
  unfold pushNew
  split
  · exact h
  · rename_i hx
    rw [List.nodup_append]
    refine ⟨h, List.nodup_singleton x, ?_⟩
    intro a ha hb
    simp at hb
    subst hb
    exact hx ha

/-- One pass of the counting loop below `maxInt` is the fold of `pushNew` over
the members of the range, and keeps `seen` in step with `fields`. -/
theorem getFieldsLoop_eq (n : Nat) : ∀ (fuel : Nat) (i e : Int) (fields : List Int)
    (seen : Int → Bool), (e + 1 - i).toNat = n → minInt ≤ i → e < maxInt → n < fuel →
    (∀ j, seen j = true ↔ j ∈ fields) →
    ∃ seen1, getFieldsLoop fuel i e fields seen
        = some ((countFrom i n).foldl pushNew fields, seen1) ∧
      (∀ j, seen1 j = true ↔ j ∈ (countFrom i n).foldl pushNew fields) := by
  induction n with
  | zero =>
    intro fuel i e fields seen hn _ _ hfuel hseen
    obtain ⟨fuel, rfl⟩ : ∃ f, fuel = f + 1 := ⟨fuel - 1, by omega⟩
    have hie : ¬ i ≤ e := by omega
    exact ⟨seen, by simp [getFieldsLoop, hie, countFrom], by simpa [countFrom] using hseen⟩
  | succ n ih =>
    intro fuel i e fields seen hn himin hemax hfuel hseen
    obtain ⟨fuel, rfl⟩ : ∃ f, fuel = f + 1 := ⟨fuel - 1, by omega⟩
    have hie : i ≤ e := by omega
    have hw : wrapInt (i + 1) = i + 1 :=
      wrapInt_of_isInt _ ⟨by unfold minInt at *; omega, by unfold maxInt at *; omega⟩
    have hn1 : (e + 1 - (i + 1)).toNat = n := by omega
    have hmin1 : minInt ≤ i + 1 := by omega
    have hf1 : n < fuel := by omega
    by_cases hs : seen i = true
    · have hmem : i ∈ fields := (hseen i).1 hs
      obtain ⟨seen1, h1, h2⟩ := ih fuel (i + 1) e fields seen hn1 hmin1 hemax hf1 hseen
      refine ⟨seen1, ?_, ?_⟩
      · simp only [getFieldsLoop, hie, hs, hw, countFrom, List.foldl_cons, pushNew, hmem]
        simpa [pushNew] using h1
      · simpa [countFrom, pushNew, hmem] using h2
    · have hmem : i ∉ fields := fun h => hs ((hseen i).2 h)
      have hseen1 : ∀ j, (fun j => if j = i then true else seen j) j = true
          ↔ j ∈ fields ++ [i] := by
        intro j
        by_cases hj : j = i
        · simp [hj]
        · simp [hj, hseen j]
      obtain ⟨seen1, h1, h2⟩ :=
        ih fuel (i + 1) e (fields ++ [i]) _ hn1 hmin1 hemax hf1 hseen1
      have hs1 : seen i = false := by simpa using hs
      refine ⟨seen1, ?_, ?_⟩
      · simp only [getFieldsLoop, hie, hs1, hw, countFrom, List.foldl_cons, pushNew, hmem]
        simpa [pushNew] using h1
      · simpa [countFrom, pushNew, hmem] using h2

/-- The outer loop over ranges whose counting loops finish is the fold of
`pushNew` over all members. -/
theorem getFieldsRanges_eq : ∀ (ranges : List FieldRange) (fuel : Nat) (fields : List Int)
    (seen : Int → Bool), (∀ r ∈ ranges, loopFinishes r) → enoughFuel ranges ≤ fuel →
    (∀ j, seen j = true ↔ j ∈ fields) →
    getFieldsRanges fuel ranges fields seen
      = some ((allMembers ranges).foldl pushNew fields) := by
  intro ranges
  induction ranges with
  | nil => intro fuel fields seen _ _ _; simp [getFieldsRanges, allMembers]
  | cons r rs ih =>
    intro fuel fields seen hfin hfuel hseen
    have hr : loopFinishes r := hfin r (List.mem_cons_self _ _)
    obtain ⟨⟨hs1, hs2⟩, ⟨_, he2⟩, hlt⟩ := hr
    have hemax : r.End < maxInt := by
      by_cases h : r.Start ≤ r.End
      · exact hlt h
      · omega
    have hf : enoughFuel (r :: rs) = max ((r.End + 1 - r.Start).toNat + 1) (enoughFuel rs) := rfl
    obtain ⟨seen1, h1, h2⟩ := getFieldsLoop_eq (r.End + 1 - r.Start).toNat fuel r.Start r.End
      fields seen rfl hs1 hemax (by omega) hseen
    have hrest := ih fuel _ seen1 (fun q hq => hfin q (List.mem_cons_of_mem _ hq))
      (by omega) h2
    simp only [getFieldsRanges, h1, hrest, allMembers, rangeMembers, List.foldl_append]

theorem firstOccurrences_filter (p : Int → Bool) : ∀ (l : List Int),
    firstOccurrences (l.filter p) = (firstOccurrences l).filter p := by
  intro l
  induction l with
  | nil => rfl
  | cons x xs ih =>
    by_cases hx : p x = true
    · simp only [List.filter_cons, hx, if_true, firstOccurrences, ih, List.filter_filter]
      congr 1
      apply List.filter_congr
      intro y _
      exact Bool.and_comm _ _
    · have hx1 : p x = false := by simpa using hx
      simp only [List.filter_cons, hx1, Bool.false_eq_true, if_false, firstOccurrences, ih,
        List.filter_filter]
      apply List.filter_congr
      intro y _
      by_cases hy : y = x
      · subst hy; simp [hx1]
      · simp [hy]

/-- Folding `pushNew` appends the first occurrences of the values not yet
present. -/
theorem foldl_pushNew : ∀ (xs fields : List Int),
    xs.foldl pushNew fields
      = fields ++ firstOccurrences (xs.filter (fun y => decide (y ∉ fields))) := by
  intro xs
  induction xs with
  | nil => intro fields; simp [firstOccurrences]
  | cons x rest ih =>
    intro fields
    by_cases hx : x ∈ fields
    · simp [pushNew, hx, ih]
    · simp only [List.foldl_cons, pushNew, hx, if_false, ih, List.filter_cons,
        decide_not, decide_False, Bool.not_false, if_true, firstOccurrences,
        List.append_assoc, List.singleton_append, ← firstOccurrences_filter,
        List.filter_filter]
      congr 3
      apply List.filter_congr
      intro y _
      by_cases hy : y = x
      · subst hy; simp
      · simp [hy]

/-- The result of `getFields` on ranges whose counting loops finish. -/
theorem getFields_eq (ranges : List FieldRange) (fuel : Nat)
    (hfin : ∀ r ∈ ranges, loopFinishes r) (hfuel : enoughFuel ranges ≤ fuel) :
    getFields fuel ranges = some (firstOccurrences (allMembers ranges)) := by
  unfold getFields
  rw [getFieldsRanges_eq ranges fuel [] _ hfin hfuel (by simp), foldl_pushNew]
  simp

/-- A counting loop towards `maxInt` never finishes: every value of the
counter satisfies the loop condition. -/
theorem getFieldsLoop_maxInt : ∀ (fuel : Nat) (i : Int) (fields : List Int)
    (seen : Int → Bool), i ≤ maxInt → getFieldsLoop fuel i maxInt fields seen = none := by
  intro fuel
  induction fuel with
  | zero => intro i fields seen _; rfl
  | succ fuel ih =>
    intro i fields seen hi
    simp only [getFieldsLoop, hi, if_true]
    split
    · exact ih _ _ _ (wrapInt_le_maxInt _)
    · exact ih _ _ _ (wrapInt_le_maxInt _)

/-- The counting loop keeps `fields` free of repetitions and `seen` in step
with it, whatever the range and the budget. -/
theorem getFieldsLoop_nodup : ∀ (fuel : Nat) (i e : Int) (fields : List Int)
    (seen : Int → Bool) (fields1 : List Int) (seen1 : Int → Bool),
    getFieldsLoop fuel i e fields seen = some (fields1, seen1) →
    fields.Nodup → (∀ j, seen j = true ↔ j ∈ fields) →
    fields1.Nodup ∧ (∀ j, seen1 j = true ↔ j ∈ fields1) := by
  intro fuel
  induction fuel with
  | zero => intro i e fields seen fields1 seen1 h; simp [getFieldsLoop] at h
  | succ fuel ih =>
    intro i e fields seen fields1 seen1 h hnd hseen
    simp only [getFieldsLoop] at h
    by_cases hie : i ≤ e
    · simp only [hie, if_true] at h
      by_cases hs : seen i = true
      · simp only [hs, Bool.not_true, Bool.false_eq_true, if_false] at h
        exact ih _ _ _ _ _ _ h hnd hseen
      · have hs1 : seen i = false := by simpa using hs
        simp only [hs1, Bool.not_false, if_true] at h
        have hmem : i ∉ fields := fun hm => hs ((hseen i).2 hm)
        refine ih _ _ _ _ _ _ h ?_ ?_
        · rw [List.nodup_append]
          refine ⟨hnd, List.nodup_singleton i, ?_⟩
          intro a ha hb
          simp at hb
          subst hb
          exact hmem ha
        · intro j
          by_cases hj : j = i
          · simp [hj]
          · simp [hj, hseen j]
    · simp only [hie, if_false, Option.some.injEq, Prod.mk.injEq] at h
      obtain ⟨rfl, rfl⟩ := h
      exact ⟨hnd, hseen⟩

theorem getFieldsRanges_nodup : ∀ (ranges : List FieldRange) (fuel : Nat)
    (fields : List Int) (seen : Int → Bool) (out : List Int),
    getFieldsRanges fuel ranges fields seen = some out →
    fields.Nodup → (∀ j, seen j = true ↔ j ∈ fields) → out.Nodup := by
  intro ranges
  induction ranges with
  | nil =>
    intro fuel fields seen out h hnd _
    simp only [getFieldsRanges, Option.some.injEq] at h
    subst h
    exact hnd
  | cons r rs ih =>
    intro fuel fields seen out h hnd hseen
    simp only [getFieldsRanges] at h
    cases hloop : getFieldsLoop fuel r.Start r.End fields seen with
    | none => simp [hloop] at h
    | some p =>
      obtain ⟨fields1, seen1⟩ := p
      simp only [hloop] at h
      obtain ⟨h1, h2⟩ := getFieldsLoop_nodup _ _ _ _ _ _ _ hloop hnd hseen
      exact ih fuel fields1 seen1 out h h1 h2

theorem mem_firstOccurrences : ∀ (l : List Int) (j : Int),
    j ∈ firstOccurrences l ↔ j ∈ l := by
  intro l
  induction l with
  | nil => intro j; simp [firstOccurrences]
  | cons x xs ih =>
    intro j
    simp only [firstOccurrences, List.mem_cons, List.mem_filter, ih]
    by_cases hj : j = x
    · simp [hj]
    · simp [hj]

theorem isInt_of_mem_allMembers : ∀ (ranges : List FieldRange) (j : Int),
    (∀ r ∈ ranges, loopFinishes r) → j ∈ allMembers ranges → isInt j := by
  intro ranges
  induction ranges with
  | nil => intro j _ h; simp [allMembers] at h
  | cons r rs ih =>
    intro j hfin h
    simp only [allMembers, List.mem_append, rangeMembers, mem_countFrom] at h
    rcases h with h | h
    · obtain ⟨⟨hs1, _⟩, ⟨_, he2⟩, _⟩ := hfin r (List.mem_cons_self _ _)
      exact ⟨by omega, by omega⟩
    · exact ih j (fun q hq => hfin q (List.mem_cons_of_mem _ hq)) h

/-! ## `processLine`: lemmas -/

/-- The selection loop appends `selectedParts`, as long as the positions are
machine integers and the number of parts fits an `int`. -/
theorem selectParts_eq (parts : List (List Char)) (hlen : (parts.length : Int) ≤ maxInt) :
    ∀ (positions : List Int) (result : List (List Char)), (∀ p ∈ positions, isInt p) →
    selectParts parts positions result = result ++ selectedParts parts positions := by
  intro positions
  induction positions with
  | nil => intro result _; simp [selectParts, selectedParts]
  | cons p rest ih =>
    intro result hp
    have hpi : isInt p := hp p (List.mem_cons_self _ _)
    have hrest : ∀ q ∈ rest, isInt q := fun q hq => hp q (List.mem_cons_of_mem _ hq)
    unfold isInt minInt maxInt at hpi
    unfold maxInt at hlen
    by_cases hin : 1 ≤ p ∧ p ≤ (parts.length : Int)
    · have hw : wrapInt (p - 1) = p - 1 := by unfold wrapInt; omega
      have hc : 0 ≤ p - 1 ∧ p - 1 < (parts.length : Int) := by omega
      simp only [selectParts, hw, hc, and_self, if_true, ih _ hrest, selectedParts,
        List.filter_cons, hin, decide_True, List.map_cons, List.append_assoc,
        List.singleton_append]
    · have hc : ¬ (0 ≤ wrapInt (p - 1) ∧ wrapInt (p - 1) < (parts.length : Int)) := by
        unfold wrapInt; omega
      simp only [selectParts, hc, if_false, ih _ hrest, selectedParts, List.filter_cons,
        hin, decide_False, Bool.false_eq_true]

/-- A suppressed record yields the empty output and `emit = false`. -/
theorem processLine_of_suppressed (fuel : Nat) (line : List Char) (config : Config)
    (h : suppressed line config) : processLine fuel line config = some ([], false) := by
  obtain ⟨h1, h2⟩ := h
  simp [processLine, h1, h2]

/-- A record that is not suppressed, with a non-empty field list whose
counting loops finish, yields the join of the selected parts and `emit = true`. -/
theorem processLine_of_loopFinishes (fuel : Nat) (line : List Char) (config : Config)
    (hsup : ¬ suppressed line config) (hne : config.FieldRanges ≠ [])
    (hfin : ∀ r ∈ config.FieldRanges, loopFinishes r)
    (hfuel : enoughFuel config.FieldRanges ≤ fuel)
    (hlen : ((strings.Split line config.Delimiter).length : Int) ≤ maxInt) :
    processLine fuel line config
      = some (strings.Join (selectedParts (strings.Split line config.Delimiter)
          (firstOccurrences (allMembers config.FieldRanges))) config.Delimiter, true) := by
  have h1 : (config.Separated && !strings.Contains line config.Delimiter) = false := by
    unfold suppressed at hsup
    cases hS : config.Separated <;> cases hC : strings.Contains line config.Delimiter <;>
      simp_all
  have h2 : ¬ config.FieldRanges.length = 0 := by
    intro h; exact hne (List.length_eq_zero.mp h)
  have h3 := getFields_eq config.FieldRanges fuel hfin hfuel
  have h4 := selectParts_eq (strings.Split line config.Delimiter) hlen
    (firstOccurrences (allMembers config.FieldRanges)) []
    (fun p hp => isInt_of_mem_allMembers _ p hfin ((mem_firstOccurrences _ p).1 hp))
  simp only [processLine, h1, Bool.false_eq_true, if_false, h2, h3, h4, List.nil_append]

/-! ## `strings`: lemmas for a one-character separator -/

theorem Index_single_of_not_mem (d : Char) : ∀ (s : List Char), d ∉ s →
    strings.Index s [d] = none := by
  intro s
  induction s with
  | nil => intro _; simp [strings.Index, List.isPrefixOf]
  | cons c cs ih =>
    intro h
    have hc : ¬ d = c := fun e => h (by simp [e])
    have hcs : d ∉ cs := fun e => h (List.mem_cons_of_mem _ e)
    simp [strings.Index, List.isPrefixOf, hc, ih hcs]

theorem Index_single_append (d : Char) (rest : List Char) : ∀ (p : List Char), d ∉ p →
    strings.Index (p ++ d :: rest) [d] = some p.length := by
  intro p
  induction p with
  | nil => intro _; simp [strings.Index, List.isPrefixOf]
  | cons c cs ih =>
    intro h
    have hc : ¬ d = c := fun e => h (by simp [e])
    have hcs : d ∉ cs := fun e => h (List.mem_cons_of_mem _ e)
    simp [strings.Index, List.isPrefixOf, hc, ih hcs]

theorem genSplit_single_of_not_mem (d : Char) (s : List Char) (h : d ∉ s) (n : Nat) :
    strings.genSplit n s [d] = [s] := by
  cases n with
  | zero => rfl
  | succ n => simp [strings.genSplit, Index_single_of_not_mem d s h]

/-- Splitting a join on a one-character separator that occurs in no part
gives the parts back. -/
theorem genSplit_Join_single (d : Char) : ∀ (parts : List (List Char)), parts ≠ [] →
    (∀ p ∈ parts, d ∉ p) → ∀ (n : Nat), (strings.Join parts [d]).length ≤ n →
    strings.genSplit n (strings.Join parts [d]) [d] = parts := by
  intro parts
  induction parts with
  | nil => intro h; exact absurd rfl h
  | cons a rest ih =>
    intro _ hd n hn
    cases rest with
    | nil =>
      simp only [strings.Join]
      exact genSplit_single_of_not_mem d a (hd a (List.mem_cons_self _ _)) n
    | cons b rest =>
      have ha : d ∉ a := hd a (List.mem_cons_self _ _)
      simp only [strings.Join, List.append_assoc, List.singleton_append, List.length_append,
        List.length_cons] at hn ⊢
      obtain ⟨n, rfl⟩ : ∃ m, n = m + 1 := ⟨n - 1, by omega⟩
      have hrest := ih (by simp) (fun p hp => hd p (List.mem_cons_of_mem _ hp)) n (by omega)
      simp only [strings.genSplit, Index_single_append d _ a ha, List.take_left,
        List.length_singleton]
      rw [show a ++ d :: strings.Join (b :: rest) [d]
          = (a ++ [d]) ++ strings.Join (b :: rest) [d] by simp]
      rw [show a.length + 1 = (a ++ [d]).length by simp, List.drop_left, hrest]

theorem Split_Join_single (d : Char) (parts : List (List Char)) (hne : parts ≠ [])
    (hd : ∀ p ∈ parts, d ∉ p) : strings.Split (strings.Join parts [d]) [d] = parts := by
  unfold strings.Split
  simp only [List.cons_ne_nil, if_false]
  exact genSplit_Join_single d parts hne hd _ (le_refl _)

/-! ## Selecting one range -/

theorem nodup_countFrom (n : Nat) : ∀ (i : Int), (countFrom i n).Nodup := by
  induction n with
  | zero => intro i; simp [countFrom]
  | succ n ih =>
    intro i
    simp only [countFrom, List.nodup_cons, mem_countFrom]
    exact ⟨by omega, ih _⟩

theorem firstOccurrences_of_nodup : ∀ (l : List Int), l.Nodup → firstOccurrences l = l := by
  intro l
  induction l with
  | nil => intro _; rfl
  | cons x xs ih =>
    intro h
    rw [List.nodup_cons] at h
    simp only [firstOccurrences, ih h.2]
    congr 1
    rw [List.filter_eq_self]
    intro y hy
    have : y ≠ x := fun e => h.1 (e ▸ hy)
    simpa using this

/-- Reading the parts at `k` consecutive positions from `m+1` on is the same
as dropping `m` parts and taking `k`. -/
theorem map_countFrom_getD (parts : List (List Char)) : ∀ (k m : Nat),
    m + k ≤ parts.length →
    (countFrom ((m : Int) + 1) k).map (fun p => parts.getD (p - 1).toNat [])
      = (parts.drop m).take k := by
  intro k
  induction k with
  | zero => intro m _; simp [countFrom]
  | succ k ih =>
    intro m hm
    have hlt : m < parts.length := by omega
    have h1 := ih (m + 1) (by omega)
    rw [List.drop_eq_getElem_cons hlt]
    simp only [countFrom, List.map_cons, List.take_succ_cons]
    rw [List.cons.injEq]
    constructor
    · simp [List.getD_eq_getElem?_getD, List.getElem?_eq_getElem hlt]
    · simpa using h1

/-- The parts selected by one range `a … b` inside `1 … len(parts)`. -/
theorem selectedParts_countFrom (parts : List (List Char)) (a b : Int) (ha : 1 ≤ a)
    (hab : a ≤ b) (hb : b ≤ (parts.length : Int)) :
    selectedParts parts (countFrom a (b + 1 - a).toNat)
      = (parts.drop (a - 1).toNat).take (b + 1 - a).toNat := by
  unfold selectedParts
  rw [List.filter_eq_self.2]
  · have h := map_countFrom_getD parts (b + 1 - a).toNat (a - 1).toNat (by omega)
    have e : (((a - 1).toNat : Nat) : Int) + 1 = a := by omega
    rw [e] at h
    exact h
  · intro p hp
    rw [mem_countFrom] at hp
    simp only [decide_eq_true_eq]
    omega

/-! ## Properties of `processLine` and `getFields` -/

/-- C1. The field number 9223372036854775807 is accepted by `parseFieldRanges`,
and with the resulting field list `processLine` does not return on a record
that is not suppressed: the counter of the loop in `getFields` wraps around at
`maxInt`, so whatever the step budget no result (and no `emit`) is produced. -/
theorem processLine_emit_maxInt :
    parseFieldRanges "9223372036854775807".toList = .ok [⟨maxInt, maxInt⟩] ∧
    ¬ suppressed "a".toList ⟨[], ",".toList, false, [⟨maxInt, maxInt⟩]⟩ ∧
    ∀ fuel : Nat,
      processLine fuel "a".toList ⟨[], ",".toList, false, [⟨maxInt, maxInt⟩]⟩ = none := by
  refine ⟨by decide, by decide, ?_⟩
  intro fuel
  have h := getFieldsLoop_maxInt fuel maxInt [] (fun _ => false) (le_refl _)
  simp [processLine, getFields, getFieldsRanges, h]

/-- C2. With an empty field list, a record that is not suppressed (the
require-delimiter flag is off, or the record contains the delimiter) is
returned unchanged with `emit = true`, whatever the step budget. -/
theorem processLine_empty_fields (fuel : Nat) (line : List Char) (config : Config)
    (hempty : config.FieldRanges = [])
    (hns : config.Separated = false ∨ strings.Contains line config.Delimiter = true) :
    processLine fuel line config = some (line, true) := by
  have h1 : (config.Separated && !strings.Contains line config.Delimiter) = false := by
    rcases hns with h | h <;> simp [h]
  simp [processLine, h1, hempty]

theorem processLine_empty_fields_witness :
    ((⟨[], "\t".toList, true, []⟩ : Config).Separated = false ∨
      strings.Contains "a\tb\tc".toList "\t".toList = true) ∧
    processLine 0 "a\tb\tc".toList ⟨[], "\t".toList, true, []⟩
      = some ("a\tb\tc".toList, true) :=
  ⟨Or.inr (by decide),
    processLine_empty_fields 0 "a\tb\tc".toList ⟨[], "\t".toList, true, []⟩ rfl
      (Or.inr (by decide))⟩

/-- C3. With the field list `1, 9223372036854775807` and the record `a,b`,
which contains the delimiter, `processLine` does not return: the counting loop
of `getFields` over the second range never finishes, whatever the step
budget.  The selection described by the claim would be `a` with `emit = true`. -/
theorem processLine_select_maxInt :
    selectedParts (strings.Split "a,b".toList ",".toList)
        (firstOccurrences (allMembers [⟨1, 1⟩, ⟨maxInt, maxInt⟩])) = ["a".toList] ∧
    ∀ fuel : Nat,
      processLine fuel "a,b".toList ⟨[], ",".toList, true, [⟨1, 1⟩, ⟨maxInt, maxInt⟩]⟩
        = none := by
  constructor
  · have h1 : allMembers [⟨1, 1⟩, ⟨maxInt, maxInt⟩] = [1, maxInt] := by decide
    rw [h1]
    decide
  · intro fuel
    have hc : strings.Contains ['a', ',', 'b'] [','] = true := by decide
    cases fuel with
    | zero => simp [processLine, hc, getFields, getFieldsRanges, getFieldsLoop]
    | succ fuel =>
      cases hl : getFieldsLoop (fuel + 1) 1 1 [] (fun _ => false) with
      | none => simp [processLine, hc, getFields, getFieldsRanges, hl]
      | some p =>
        simp [processLine, hc, getFields, getFieldsRanges, hl,
          getFieldsLoop_maxInt (fuel + 1) maxInt p.1 p.2 (le_refl _)]

/-- C4. For a one-character delimiter `d`, parts none of which contains `d`,
and `1 ≤ a ≤ b ≤ len(parts)`, `processLine` on the join of the parts with the
field list `[a-b]` and the flag off returns the join of the `a`-th to `b`-th
part with `emit = true`, once the step budget covers the `b - a + 1` members
of the range.  The number of parts is below `maxInt`, as the length of every
Go slice is. -/
theorem processLine_range (d : Char) (parts : List (List Char)) (a b : Int) (fuel : Nat)
    (fields : List Char) (hne : parts ≠ []) (hd : ∀ p ∈ parts, d ∉ p) (ha : 1 ≤ a)
    (hab : a ≤ b) (hb : b ≤ (parts.length : Int)) (hmax : (parts.length : Int) < maxInt)
    (hfuel : (b + 1 - a).toNat < fuel) :
    processLine fuel (strings.Join parts [d]) ⟨fields, [d], false, [⟨a, b⟩]⟩
      = some (strings.Join ((parts.drop (a - 1).toNat).take (b + 1 - a).toNat) [d], true) := by
  have hsplit := Split_Join_single d parts hne hd
  have hfin : ∀ r ∈ [(⟨a, b⟩ : FieldRange)], loopFinishes r := by
    intro r hr
    simp only [List.mem_singleton] at hr
    subst hr
    unfold loopFinishes isInt minInt
    unfold maxInt at hmax ⊢
    simp only
    omega
  have hfu : enoughFuel [(⟨a, b⟩ : FieldRange)] ≤ fuel := by
    simp only [enoughFuel]
    omega
  have h := processLine_of_loopFinishes fuel (strings.Join parts [d])
    ⟨fields, [d], false, [⟨a, b⟩]⟩ (by simp [suppressed]) (by simp) hfin hfu
    (by simp only [hsplit]; omega)
  rw [h]
  simp only [hsplit, allMembers, rangeMembers, List.append_nil,
    firstOccurrences_of_nodup _ (nodup_countFrom _ _),
    selectedParts_countFrom parts a b ha hab hb]

theorem processLine_range_witness :
    processLine 4 "a\tb\tc\td\te".toList ⟨[], "\t".toList, false, [⟨2, 4⟩]⟩
      = some ("b\tc\td".toList, true) :=
  processLine_range '\t' ["a".toList, "b".toList, "c".toList, "d".toList, "e".toList] 2 4 4 []
    (by decide) (by decide) (by decide) (by decide) (by decide) (by decide) (by decide)

/-- C5. On the single range from 9223372036854775807 to 9223372036854775807,
whose only member is 9223372036854775807, `getFields` does not return: the
counter wraps around to `minInt` after that member and the loop condition
`i <= r.End` holds for every value of the counter. -/
theorem getFields_maxInt :
    firstOccurrences (allMembers [⟨maxInt, maxInt⟩]) = [maxInt] ∧
    ∀ fuel : Nat, getFields fuel [⟨maxInt, maxInt⟩] = none := by
  refine ⟨by decide, ?_⟩
  intro fuel
  simp [getFields, getFieldsRanges, getFieldsLoop_maxInt fuel maxInt [] _ (le_refl _)]

/-- C6. Every list returned by `getFields`, for whatever ranges and step
budget, contains no value twice; and whenever the counting loops of the
ranges finish, a list is returned. -/
theorem getFields_nodup (ranges : List FieldRange) :
    (∀ (fuel : Nat) (out : List Int), getFields fuel ranges = some out → out.Nodup) ∧
    ((∀ r ∈ ranges, loopFinishes r) → ∀ fuel : Nat, enoughFuel ranges ≤ fuel →
      ∃ out, getFields fuel ranges = some out ∧ out.Nodup) := by
  have h1 : ∀ (fuel : Nat) (out : List Int), getFields fuel ranges = some out → out.Nodup :=
    fun fuel out h =>
      getFieldsRanges_nodup ranges fuel [] (fun _ => false) out h List.nodup_nil (by simp)
  refine ⟨h1, ?_⟩
  intro hfin fuel hfuel
  exact ⟨_, getFields_eq ranges fuel hfin hfuel, h1 fuel _ (getFields_eq ranges fuel hfin hfuel)⟩

theorem getFields_nodup_witness :
    (∀ r ∈ [(⟨1, 5⟩ : FieldRange), ⟨3, 7⟩, ⟨1, 5⟩], loopFinishes r) ∧
    enoughFuel [⟨1, 5⟩, ⟨3, 7⟩, ⟨1, 5⟩] ≤ 6 ∧
    getFields 6 [⟨1, 5⟩, ⟨3, 7⟩, ⟨1, 5⟩] = some [1, 2, 3, 4, 5, 6, 7] ∧
    [(1 : Int), 2, 3, 4, 5, 6, 7].Nodup ∧
    ∃ out, getFields 6 [⟨1, 5⟩, ⟨3, 7⟩, ⟨1, 5⟩] = some out ∧ out.Nodup :=
  ⟨by decide, by decide, by decide,
    (getFields_nodup [⟨1, 5⟩, ⟨3, 7⟩, ⟨1, 5⟩]).1 6 _ (by decide),
    (getFields_nodup [⟨1, 5⟩, ⟨3, 7⟩, ⟨1, 5⟩]).2 (by decide) 6 (by decide)⟩

/-! ## Decimal texts -/

theorem digitChar_toNat : ∀ d : Nat, d < 10 → (Nat.digitChar d).toNat = 48 + d := by
  decide

theorem parseDigits_append : ∀ (xs ys : List Char) (acc : Nat),
    strconv.parseDigits (xs ++ ys) acc
      = (strconv.parseDigits xs acc).bind (fun v => strconv.parseDigits ys v) := by
  intro xs
  induction xs with
  | nil => intro ys acc; simp [strconv.parseDigits]
  | cons c cs ih =>
    intro ys acc
    by_cases hc : 48 ≤ c.toNat ∧ c.toNat ≤ 57
    · simp only [List.cons_append, strconv.parseDigits, hc, and_self, if_true]
      exact ih ys _
    · simp only [List.cons_append, strconv.parseDigits, hc, if_false, Option.bind]

/-- The digits written by `Nat.toDigitsCore` in base 10: a non-empty block of
digit characters in front of the accumulator, which reads back as the number. -/
theorem toDigitsCore_spec : ∀ (fuel n : Nat) (ds : List Char), n < fuel →
    ∃ pre : List Char, Nat.toDigitsCore 10 fuel n ds = pre ++ ds ∧ pre ≠ [] ∧
      (∀ c ∈ pre, isDigit c) ∧ strconv.parseDigits pre 0 = some n := by
  intro fuel
  induction fuel with
  | zero => intro n ds h; omega
  | succ fuel ih =>
    intro n ds hn
    have hd : (Nat.digitChar (n % 10)).toNat = 48 + n % 10 :=
      digitChar_toNat _ (Nat.mod_lt _ (by decide))
    have hdig : isDigit (Nat.digitChar (n % 10)) := by
      unfold isDigit
      have := Nat.mod_lt n (show 0 < 10 by decide)
      omega
    by_cases h0 : n / 10 = 0
    · refine ⟨[Nat.digitChar (n % 10)], ?_, by simp, ?_, ?_⟩
      · simp [Nat.toDigitsCore, h0]
      · intro c hc
        simp only [List.mem_singleton] at hc
        subst hc
        exact hdig
      · have h48 : 48 ≤ (Nat.digitChar (n % 10)).toNat ∧ (Nat.digitChar (n % 10)).toNat ≤ 57 :=
          hdig
        simp only [strconv.parseDigits, hd]
        rw [if_pos (by omega)]
        simp only [Option.some.injEq]
        omega
    · obtain ⟨pre, h1, _, h3, h4⟩ := ih (n / 10) (Nat.digitChar (n % 10) :: ds) (by omega)
      refine ⟨pre ++ [Nat.digitChar (n % 10)], ?_, by simp, ?_, ?_⟩
      · simp [Nat.toDigitsCore, h0, h1]
      · intro c hc
        simp only [List.mem_append, List.mem_singleton] at hc
        rcases hc with hc | hc
        · exact h3 c hc
        · subst hc; exact hdig
      · have h48 : 48 ≤ (Nat.digitChar (n % 10)).toNat ∧ (Nat.digitChar (n % 10)).toNat ≤ 57 :=
          hdig
        simp only [parseDigits_append, h4, Option.bind, strconv.parseDigits, hd]
        rw [if_pos (by omega)]
        simp only [Option.some.injEq]
        omega

theorem decimal_spec (n : Nat) :
    decimal n ≠ [] ∧ (∀ c ∈ decimal n, isDigit c) ∧ strconv.parseDigits (decimal n) 0 = some n := by
  obtain ⟨pre, h1, h2, h3, h4⟩ := toDigitsCore_spec (n + 1) n [] (by omega)
  have h : decimal n = pre := by simp [decimal, Nat.toDigits, h1]
  rw [h]
  exact ⟨h2, h3, h4⟩

/-- A text of printable ASCII characters has no white space. -/
theorem isSpace_of_printable (c : Char) (h : 33 ≤ c.toNat ∧ c.toNat ≤ 126) :
    strings.isSpace c = false := by
  simp only [strings.isSpace, Bool.or_eq_false_iff, Bool.and_eq_false_iff, decide_eq_false_iff_not]
  omega

theorem dropWhile_of_none (p : Char → Bool) (s : List Char) (h : ∀ c ∈ s, p c = false) :
    s.dropWhile p = s := by
  cases s with
  | nil => rfl
  | cons c cs => simp [List.dropWhile_cons, h c (List.mem_cons_self _ _)]

/-- `TrimSpace` leaves a text without white space as it is. -/
theorem TrimSpace_of_no_space (s : List Char) (h : ∀ c ∈ s, strings.isSpace c = false) :
    strings.TrimSpace s = s := by
  unfold strings.TrimSpace
  rw [dropWhile_of_none _ s h, dropWhile_of_none _ s.reverse (by simpa using h)]
  simp

/-- `Atoi` reads the decimal text of a number that fits an `int` as that number. -/
theorem Atoi_decimal (n : Nat) (hn : (n : Int) ≤ maxInt) : strconv.Atoi (decimal n) = some (n : Int) := by
  obtain ⟨h1, h2, h3⟩ := decimal_spec n
  cases hd : decimal n with
  | nil => exact absurd hd h1
  | cons c cs =>
    rw [hd] at h2 h3
    have hc : isDigit c := h2 c (List.mem_cons_self _ _)
    have hminus : c ≠ '-' := by
      intro e; subst e; revert hc; unfold isDigit; decide
    have hplus : c ≠ '+' := by
      intro e; subst e; revert hc; unfold isDigit; decide
    unfold maxInt at hn
    have hlt : ¬ ((n : Int) ≥ 9223372036854775808) := by omega
    simp [strconv.Atoi, hminus, hplus, h3, hlt]

/-! ## `strings.Split`: the step budget and concatenation -/

/-- An occurrence found by `Index` lies inside the text. -/
theorem Index_some_le (sep : List Char) : ∀ (s : List Char) (k : Nat),
    strings.Index s sep = some k → k + sep.length ≤ s.length := by
  intro s
  induction s with
  | nil =>
    intro k h
    cases sep with
    | nil => simp [strings.Index, List.isPrefixOf] at h; omega
    | cons a as => simp [strings.Index, List.isPrefixOf] at h
  | cons c cs ih =>
    intro k h
    simp only [strings.Index] at h
    by_cases hp : sep.isPrefixOf (c :: cs) = true
    · simp only [hp, if_true, Option.some.injEq] at h
      have := (List.isPrefixOf_iff_prefix.1 hp).length_le
      omega
    · simp only [hp, if_false, Bool.false_eq_true, Option.map_eq_some'] at h
      obtain ⟨k1, hk1, rfl⟩ := h
      have := ih k1 hk1
      simp only [List.length_cons]
      omega

/-- With a non-empty separator every step budget of at least `len(s)` gives
the same split. -/
theorem genSplit_fuel (sep : List Char) (hsep : sep ≠ []) : ∀ (n m : Nat) (s : List Char),
    s.length ≤ n → s.length ≤ m → strings.genSplit n s sep = strings.genSplit m s sep := by
  have hpos : 0 < sep.length := List.length_pos.2 hsep
  have hnil : strings.Index [] sep = none := by
    cases sep with
    | nil => exact absurd rfl hsep
    | cons a as => simp [strings.Index, List.isPrefixOf]
  intro n
  induction n with
  | zero =>
    intro m s hn _
    have hs : s = [] := List.length_eq_zero.1 (by omega)
    subst hs
    cases m with
    | zero => rfl
    | succ m => simp [strings.genSplit, hnil]
  | succ n ih =>
    intro m s hn hm
    cases m with
    | zero =>
      have hs : s = [] := List.length_eq_zero.1 (by omega)
      subst hs
      simp [strings.genSplit, hnil]
    | succ m =>
      simp only [strings.genSplit]
      cases hi : strings.Index s sep with
      | none => rfl
      | some k =>
        have hk := Index_some_le sep s k hi
        simp only
        rw [ih m (s.drop (k + sep.length)) (by rw [List.length_drop]; omega)
          (by rw [List.length_drop]; omega)]

/-- Splitting `a + d + b` on the one-character separator `d` gives the pieces
of `a` followed by the pieces of `b`. -/
theorem genSplit_append_single (d : Char) (b : List Char) : ∀ (n : Nat) (a : List Char),
    (a ++ d :: b).length ≤ n →
    strings.genSplit n (a ++ d :: b) [d]
      = strings.genSplit a.length a [d] ++ strings.genSplit b.length b [d] := by
  intro n
  induction n with
  | zero => intro a h; simp at h
  | succ n ih =>
    intro a hn
    simp only [List.length_append, List.length_cons] at hn
    by_cases hmem : d ∈ a
    · obtain ⟨p, q, rfl, hp⟩ := List.eq_append_cons_of_mem hmem
      simp only [List.length_append, List.length_cons] at hn
      have e1 : p ++ d :: q ++ d :: b = p ++ d :: (q ++ d :: b) := by simp
      have e2 : (p ++ d :: q).length = (p.length + q.length) + 1 := by
        simp only [List.length_append, List.length_cons]; omega
      have hq := ih q (by simp only [List.length_append, List.length_cons]; omega)
      rw [e1, e2]
      simp only [strings.genSplit, Index_single_append d _ p hp, List.take_left,
        List.length_singleton]
      rw [show p ++ d :: (q ++ d :: b) = (p ++ [d]) ++ (q ++ d :: b) by simp,
        show p ++ d :: q = (p ++ [d]) ++ q by simp,
        show p.length + 1 = (p ++ [d]).length by simp, List.drop_left, List.drop_left, hq,
        genSplit_fuel [d] (by simp) (p.length + q.length) q.length q (by omega) (le_refl _)]
      simp
    · simp only [strings.genSplit, Index_single_append d _ a hmem, List.take_left,
        List.length_singleton, genSplit_single_of_not_mem d a hmem]
      rw [show a ++ d :: b = (a ++ [d]) ++ b by simp,
        show a.length + 1 = (a ++ [d]).length by simp, List.drop_left,
        genSplit_fuel [d] (by simp) n b.length b (by omega) (le_refl _)]
      simp

theorem Split_append_single (d : Char) (a b : List Char) :
    strings.Split (a ++ d :: b) [d] = strings.Split a [d] ++ strings.Split b [d] := by
  simp only [strings.Split, List.cons_ne_nil, if_false]
  exact genSplit_append_single d b _ a (le_refl _)

theorem Split_single_of_not_mem (d : Char) (s : List Char) (h : d ∉ s) :
    strings.Split s [d] = [s] := by
  simp only [strings.Split, List.cons_ne_nil, if_false]
  exact genSplit_single_of_not_mem d s h _

/-! ## `parseFieldRanges`: the loop token by token -/

/-- The loop of `parseParts` handles the first token as `parseToken` says and
goes on with the rest. -/
theorem parseParts_cons (part0 : List Char) (rest : List (List Char))
    (ranges : List FieldRange) :
    parseParts (part0 :: rest) ranges
      = match parseToken part0 with
        | .error e => .error e
        | .ok none => parseParts rest ranges
        | .ok (some r) => parseParts rest (ranges ++ [r]) := by
  simp only [parseParts, parseToken]
  split_ifs <;> try rfl
  all_goals (split <;> try rfl)
  all_goals (split <;> try rfl)
  all_goals (split_ifs <;> rfl)

/-- The ranges built so far are a prefix of the result of the loop. -/
theorem parseParts_acc : ∀ (parts : List (List Char)) (ranges : List FieldRange),
    parseParts parts ranges = (parseParts parts []).map (fun rs => ranges ++ rs) := by
  intro parts
  induction parts with
  | nil => intro ranges; simp [parseParts, Except.map]
  | cons part0 rest ih =>
    intro ranges
    rw [parseParts_cons, parseParts_cons]
    cases parseToken part0 with
    | error e => rfl
    | ok o =>
      cases o with
      | none => exact ih ranges
      | some r =>
        simp only
        rw [ih (ranges ++ [r]), ih ([] ++ [r])]
        cases parseParts rest [] with
        | error e => rfl
        | ok rs => simp [Except.map]

/-- The loop over a concatenation of token lists. -/
theorem parseParts_append : ∀ (xs ys : List (List Char)) (ranges : List FieldRange),
    parseParts (xs ++ ys) ranges
      = match parseParts xs ranges with
        | .error e => .error e
        | .ok rs => parseParts ys rs := by
  intro xs
  induction xs with
  | nil => intro ys ranges; simp [parseParts]
  | cons part0 rest ih =>
    intro ys ranges
    rw [List.cons_append, parseParts_cons, parseParts_cons]
    cases parseToken part0 with
    | error e => rfl
    | ok o =>
      cases o with
      | none => exact ih ys ranges
      | some r => exact ih ys _

theorem not_isDigit_comma : ¬ isDigit ',' := by unfold isDigit; decide

theorem not_isDigit_minus : ¬ isDigit '-' := by unfold isDigit; decide

theorem isSpace_of_isDigit (c : Char) (h : isDigit c) : strings.isSpace c = false :=
  isSpace_of_printable c (by unfold isDigit at h; omega)

/-- All characters of a white-space-only text are white space. -/
theorem all_isSpace_of_TrimSpace_nil (s : List Char) (h : strings.TrimSpace s = []) :
    ∀ c ∈ s, strings.isSpace c = true := by
  unfold strings.TrimSpace at h
  rw [List.reverse_eq_nil_iff, List.dropWhile_eq_nil_iff] at h
  have ht : s.dropWhile strings.isSpace = [] := by
    by_contra hne
    have h1 := List.head_dropWhile_not strings.isSpace s hne
    have h2 := h ((s.dropWhile strings.isSpace).head hne)
      (List.mem_reverse.2 (List.head_mem hne))
    rw [h1] at h2
    exact Bool.false_ne_true h2
  exact List.dropWhile_eq_nil_iff.1 ht

/-! ## Properties of `parseFieldRanges` -/

/-- C7, as claimed, fails: the text consisting of one space is empty after
trimming, yet `parseFieldRanges` succeeds on it with an empty list of ranges. -/
theorem parseFieldRanges_space_ok :
    strings.TrimSpace " ".toList = [] ∧ parseFieldRanges " ".toList = .ok [] := by
  decide

/-- C7, amended.  On a text that is empty after trimming, `parseFieldRanges`
fails with the empty-specification error exactly when the text is the empty
string; on a non-empty text of white space only it succeeds with an empty
list of ranges. -/
theorem parseFieldRanges_blank (fields : List Char) (h : strings.TrimSpace fields = []) :
    parseFieldRanges fields = if fields = [] then .error .emptyFields else .ok [] := by
  by_cases he : fields = []
  · simp [parseFieldRanges, he]
  · have hsp := all_isSpace_of_TrimSpace_nil fields h
    have hc : ',' ∉ fields := by
      intro hm
      have := hsp ',' hm
      revert this
      decide
    simp only [parseFieldRanges, he, if_false, Split_single_of_not_mem ',' fields hc,
      parseParts, h, if_true]

theorem parseFieldRanges_blank_witness :
    strings.TrimSpace " \t ".toList = [] ∧
    parseFieldRanges " \t ".toList
      = if " \t ".toList = [] then .error .emptyFields else .ok [] :=
  ⟨by decide, parseFieldRanges_blank " \t ".toList (by decide)⟩

/-- C8. For a natural number `n` that fits an `int`, `parseFieldRanges` on
the decimal text of `n` returns the single range from `n` to `n` when
`n ≥ 1`, and fails with the non-positive-field error when `n = 0`. -/
theorem parseFieldRanges_decimal (n : Nat) (hn : (n : Int) ≤ maxInt) :
    parseFieldRanges (decimal n)
      = if 1 ≤ n then .ok [⟨(n : Int), (n : Int)⟩] else .error (.nonPositiveField 0) := by
  obtain ⟨h1, h2, _⟩ := decimal_spec n
  have hc : ',' ∉ decimal n := fun hm => not_isDigit_comma (h2 _ hm)
  have hm : '-' ∉ decimal n := fun hm => not_isDigit_minus (h2 _ hm)
  have htrim : strings.TrimSpace (decimal n) = decimal n :=
    TrimSpace_of_no_space _ (fun c hc => isSpace_of_isDigit c (h2 c hc))
  have hcont : strings.Contains (decimal n) ['-'] = false := by
    simp [strings.Contains, Index_single_of_not_mem '-' _ hm]
  have htok : parseToken (decimal n)
      = if 1 ≤ n then .ok (some ⟨(n : Int), (n : Int)⟩) else .error (.nonPositiveField 0) := by
    simp only [parseToken, htrim, h1, if_false, hcont, Bool.false_eq_true, Atoi_decimal n hn]
    by_cases h : 1 ≤ n
    · have h' : ¬ ((n : Int) < 1) := by omega
      simp [h, h']
    · have h0 : n = 0 := by omega
      subst h0
      simp
  simp only [parseFieldRanges, h1, if_false, Split_single_of_not_mem ',' _ hc, parseParts_cons,
    htok]
  by_cases h : 1 ≤ n
  · simp [h, parseParts]
  · simp [h]

theorem parseFieldRanges_decimal_witness :
    ((7 : Nat) : Int) ≤ maxInt ∧
    parseFieldRanges (decimal 7)
      = if 1 ≤ 7 then .ok [⟨((7 : Nat) : Int), ((7 : Nat) : Int)⟩]
        else .error (.nonPositiveField 0) :=
  ⟨by decide, parseFieldRanges_decimal 7 (by decide)⟩

/-- C9. For natural numbers `a` and `b` that fit an `int`, `parseFieldRanges`
on the text `a-b` (decimal texts around a hyphen) returns the single range
from `a` to `b` when `a ≤ b`, also for `a = 0`, and fails with the error
"start greater than end" when `a > b`. -/
theorem parseFieldRanges_decimal_range (a b : Nat) (ha : (a : Int) ≤ maxInt)
    (hb : (b : Int) ≤ maxInt) :
    parseFieldRanges (decimal a ++ '-' :: decimal b)
      = if a ≤ b then .ok [⟨(a : Int), (b : Int)⟩]
        else .error (.startAfterEnd (decimal a ++ '-' :: decimal b)) := by
  obtain ⟨a1, a2, _⟩ := decimal_spec a
  obtain ⟨b1, b2, _⟩ := decimal_spec b
  have hdig : ∀ c ∈ decimal a ++ '-' :: decimal b, isDigit c ∨ c = '-' := by
    intro c hc
    simp only [List.mem_append, List.mem_cons] at hc
    rcases hc with hc | hc | hc
    · exact Or.inl (a2 c hc)
    · exact Or.inr hc
    · exact Or.inl (b2 c hc)
  have hne : decimal a ++ '-' :: decimal b ≠ [] := by simp
  have hc : ',' ∉ decimal a ++ '-' :: decimal b := by
    intro hm
    rcases hdig _ hm with h | h
    · exact not_isDigit_comma h
    · revert h; decide
  have htrim : strings.TrimSpace (decimal a ++ '-' :: decimal b)
      = decimal a ++ '-' :: decimal b := by
    apply TrimSpace_of_no_space
    intro c hc
    rcases hdig c hc with h | h
    · exact isSpace_of_isDigit c h
    · subst h; decide
  have hma : '-' ∉ decimal a := fun hm => not_isDigit_minus (a2 _ hm)
  have hmb : '-' ∉ decimal b := fun hm => not_isDigit_minus (b2 _ hm)
  have hcont : strings.Contains (decimal a ++ '-' :: decimal b) ['-'] = true := by
    simp [strings.Contains, Index_single_append '-' _ _ hma]
  have hsplit : strings.Split (decimal a ++ '-' :: decimal b) ['-'] = [decimal a, decimal b] := by
    have h := Split_Join_single '-' [decimal a, decimal b] (by simp)
      (by
        intro p hp
        simp only [List.mem_cons, List.mem_singleton, List.not_mem_nil, or_false] at hp
        rcases hp with rfl | rfl
        · exact hma
        · exact hmb)
    simpa [strings.Join] using h
  have hta : strings.TrimSpace (decimal a) = decimal a :=
    TrimSpace_of_no_space _ (fun c hc => isSpace_of_isDigit c (a2 c hc))
  have htb : strings.TrimSpace (decimal b) = decimal b :=
    TrimSpace_of_no_space _ (fun c hc => isSpace_of_isDigit c (b2 c hc))
  have htok : parseToken (decimal a ++ '-' :: decimal b)
      = if a ≤ b then .ok (some ⟨(a : Int), (b : Int)⟩)
        else .error (.startAfterEnd (decimal a ++ '-' :: decimal b)) := by
    simp only [parseToken, htrim, hne, if_false, hcont, if_true, hsplit, List.length_cons,
      List.length_nil, List.getD_cons_zero, List.getD_cons_succ, hta, htb,
      Atoi_decimal a ha, Atoi_decimal b hb]
    by_cases h : a ≤ b
    · have h' : ¬ ((a : Int) > (b : Int)) := by omega
      simp [h, h']
    · have h' : (a : Int) > (b : Int) := by omega
      simp [h, h']
  simp only [parseFieldRanges, hne, if_false, Split_single_of_not_mem ',' _ hc, parseParts_cons,
    htok]
  by_cases h : a ≤ b
  · simp [h, parseParts]
  · simp [h]

theorem parseFieldRanges_decimal_range_witness :
    ((0 : Nat) : Int) ≤ maxInt ∧ ((3 : Nat) : Int) ≤ maxInt ∧
    parseFieldRanges (decimal 0 ++ '-' :: decimal 3)
      = if 0 ≤ 3 then .ok [⟨((0 : Nat) : Int), ((3 : Nat) : Int)⟩]
        else .error (.startAfterEnd (decimal 0 ++ '-' :: decimal 3)) :=
  ⟨by decide, by decide, parseFieldRanges_decimal_range 0 3 (by decide) (by decide)⟩

/-- C10. Parsing keeps the order of the tokens and removes no repetition: if
`parseFieldRanges` succeeds on `a` with `ra` and on `b` with `rb`, it succeeds
on `a + "," + b` with `ra ++ rb`.  (A text on which it succeeds is not empty.) -/
theorem parseFieldRanges_comma (a b : List Char) (ra rb : List FieldRange)
    (ha : parseFieldRanges a = .ok ra) (hb : parseFieldRanges b = .ok rb) :
    parseFieldRanges (a ++ ',' :: b) = .ok (ra ++ rb) := by
  have hane : a ≠ [] := by
    intro h; subst h; simp [parseFieldRanges] at ha
  have hbne : b ≠ [] := by
    intro h; subst h; simp [parseFieldRanges] at hb
  simp only [parseFieldRanges, hane, hbne, if_false] at ha hb
  have hne : a ++ ',' :: b ≠ [] := by simp
  simp only [parseFieldRanges, hne, if_false, Split_append_single, parseParts_append, ha]
  rw [parseParts_acc, hb]
  rfl

theorem parseFieldRanges_comma_witness :
    parseFieldRanges "3-5,1".toList = .ok [⟨3, 5⟩, ⟨1, 1⟩] ∧
    parseFieldRanges "4,3-5".toList = .ok [⟨4, 4⟩, ⟨3, 5⟩] ∧
    parseFieldRanges ("3-5,1".toList ++ ',' :: "4,3-5".toList)
      = .ok ([⟨3, 5⟩, ⟨1, 1⟩] ++ [⟨4, 4⟩, ⟨3, 5⟩]) :=
  ⟨by decide, by decide,
    parseFieldRanges_comma "3-5,1".toList "4,3-5".toList _ _ (by decide) (by decide)⟩

theorem parseToken_nil : parseToken [] = .ok none := by
  simp [parseToken, strings.TrimSpace]

theorem Split_nil_single (d : Char) : strings.Split [] [d] = [[]] := by
  simp [strings.Split, strings.genSplit]

/-- C11. Parsing is all-or-nothing and the first error wins: for non-empty
texts `a` and `b`, an error of `parseFieldRanges` on `a` is the result on
`a + "," + b`, and when `a` parses, an error on `b` is the result on
`a + "," + b`.  An error result carries no list of ranges (the code returns
`nil` with it). -/
theorem parseFieldRanges_first_error (a b : List Char) (ha : a ≠ []) (hb : b ≠ []) :
    (∀ e, parseFieldRanges a = .error e → parseFieldRanges (a ++ ',' :: b) = .error e) ∧
    (∀ ra e, parseFieldRanges a = .ok ra → parseFieldRanges b = .error e →
      parseFieldRanges (a ++ ',' :: b) = .error e) := by
  have hne : a ++ ',' :: b ≠ [] := by simp
  constructor
  · intro e h
    simp only [parseFieldRanges, ha, if_false] at h
    simp only [parseFieldRanges, hne, if_false, Split_append_single, parseParts_append, h]
  · intro ra e h1 h2
    simp only [parseFieldRanges, ha, hb, if_false] at h1 h2
    simp only [parseFieldRanges, hne, if_false, Split_append_single, parseParts_append, h1]
    rw [parseParts_acc, h2]
    rfl

theorem parseFieldRanges_first_error_witness :
    parseFieldRanges "1-3-5,x".toList = .error (.badRangeFormat "1-3-5".toList) ∧
    parseFieldRanges "1,0".toList = .error (.nonPositiveField 0) :=
  ⟨(parseFieldRanges_first_error "1-3-5".toList "x".toList (by decide) (by decide)).1 _
      (by decide),
    (parseFieldRanges_first_error "1".toList "0".toList (by decide) (by decide)).2
      [⟨1, 1⟩] (.nonPositiveField 0) (by decide) (by decide)⟩

/-- C13. For every natural number `n`, `parseFieldRanges` on `-n` (a hyphen
in front of the decimal text) fails with the error for the start of a range:
the token is split on the hyphen into an empty first piece, which is no
integer, and the decimal text. -/
theorem parseFieldRanges_negative (n : Nat) :
    parseFieldRanges ('-' :: decimal n) = .error (.badRangeStart []) := by
  obtain ⟨_, b2, _⟩ := decimal_spec n
  have hmb : '-' ∉ decimal n := fun hm => not_isDigit_minus (b2 _ hm)
  have hne : '-' :: decimal n ≠ [] := by simp
  have hc : ',' ∉ '-' :: decimal n := by
    intro hm
    simp only [List.mem_cons] at hm
    rcases hm with h | h
    · revert h; decide
    · exact not_isDigit_comma (b2 _ h)
  have htrim : strings.TrimSpace ('-' :: decimal n) = '-' :: decimal n := by
    apply TrimSpace_of_no_space
    intro c hc
    simp only [List.mem_cons] at hc
    rcases hc with h | h
    · subst h; decide
    · exact isSpace_of_isDigit c (b2 c h)
  have hcont : strings.Contains ('-' :: decimal n) ['-'] = true := by
    simp [strings.Contains, strings.Index, List.isPrefixOf]
  have hsplit : strings.Split ('-' :: decimal n) ['-'] = [[], decimal n] := by
    have h := Split_Join_single '-' [[], decimal n] (by simp)
      (by
        intro p hp
        simp only [List.mem_cons, List.mem_singleton, List.not_mem_nil, or_false] at hp
        rcases hp with rfl | rfl
        · simp
        · exact hmb)
    simpa [strings.Join] using h
  have htok : parseToken ('-' :: decimal n) = .error (.badRangeStart []) := by
    have ht0 : strings.TrimSpace [] = [] := rfl
    have ha0 : strconv.Atoi [] = none := rfl
    simp only [parseToken, htrim, hne, if_false, hcont, if_true, hsplit, List.length_cons,
      List.length_nil, List.getD_cons_zero, ht0, ha0]
    simp
  simp only [parseFieldRanges, hne, if_false, Split_single_of_not_mem ',' _ hc, parseParts_cons,
    htok]

/-- C16. Empty tokens are skipped: for a non-empty text `s`, a comma in front
of `s` or behind it does not change the result of `parseFieldRanges`, be it a
list of ranges or an error. -/
theorem parseFieldRanges_empty_token (s : List Char) (hs : s ≠ []) :
    parseFieldRanges (',' :: s) = parseFieldRanges s ∧
    parseFieldRanges (s ++ [',']) = parseFieldRanges s := by
  constructor
  · have h := Split_append_single ',' [] s
    simp only [List.nil_append] at h
    simp only [parseFieldRanges, hs, if_false, List.cons_ne_nil, h, Split_nil_single,
      List.singleton_append, parseParts_cons, parseToken_nil]
  · have hne : s ++ [','] ≠ [] := by simp
    have h := Split_append_single ',' s []
    simp only [parseFieldRanges, hs, hne, if_false, h, Split_nil_single, parseParts_append]
    cases parseParts (strings.Split s [',']) [] with
    | error e => rfl
    | ok rs =>
      show parseParts [[]] rs = .ok rs
      rw [parseParts_cons, parseToken_nil]
      rfl

theorem parseFieldRanges_empty_token_witness :
    parseFieldRanges ",1,3-5".toList = parseFieldRanges "1,3-5".toList ∧
    parseFieldRanges "1,3-5,".toList = parseFieldRanges "1,3-5".toList :=
  parseFieldRanges_empty_token "1,3-5".toList (by decide)

/-! ## `strings.Split` on one character: the pieces -/

theorem Split_cons_single (d : Char) (p q : List Char) (hp : d ∉ p) :
    strings.Split (p ++ d :: q) [d] = p :: strings.Split q [d] := by
  rw [Split_append_single, Split_single_of_not_mem d p hp]
  rfl

/-- Induction along the cuts of `Split` on a one-character separator. -/
theorem Split_single_induction (d : Char) (P : List Char → List (List Char) → Prop)
    (h0 : ∀ s, d ∉ s → P s [s])
    (h1 : ∀ p q, d ∉ p → P q (strings.Split q [d]) → P (p ++ d :: q) (p :: strings.Split q [d])) :
    ∀ s, P s (strings.Split s [d]) := by
  have main : ∀ (n : Nat) (s : List Char), s.length ≤ n → P s (strings.Split s [d]) := by
    intro n
    induction n with
    | zero =>
      intro s hs
      have e : s = [] := List.length_eq_zero.1 (by omega)
      subst e
      rw [Split_single_of_not_mem d [] (by simp)]
      exact h0 [] (by simp)
    | succ n ih =>
      intro s hs
      by_cases hm : d ∈ s
      · obtain ⟨p, q, rfl, hp⟩ := List.eq_append_cons_of_mem hm
        rw [Split_cons_single d p q hp]
        simp only [List.length_append, List.length_cons] at hs
        exact h1 p q hp (ih q (by omega))
      · rw [Split_single_of_not_mem d s hm]
        exact h0 s hm
  intro s
  exact main s.length s (le_refl _)

/-- The number of pieces is the number of separators plus one. -/
theorem length_Split_single (d : Char) (s : List Char) :
    (strings.Split s [d]).length = s.count d + 1 := by
  refine Split_single_induction d (fun s l => l.length = s.count d + 1) ?_ ?_ s
  · intro s hs
    simp [List.count_eq_zero_of_not_mem hs]
  · intro p q hp ih
    simp only [List.length_cons, ih, List.count_append, List.count_cons_self,
      List.count_eq_zero_of_not_mem hp]
    omega

/-- No piece contains the separator. -/
theorem not_mem_of_mem_Split_single (d : Char) (s : List Char) :
    ∀ x ∈ strings.Split s [d], d ∉ x := by
  refine Split_single_induction d (fun _ l => ∀ x ∈ l, d ∉ x) ?_ ?_ s
  · intro s hs x hx
    simp only [List.mem_singleton] at hx
    subst hx
    exact hs
  · intro p q hp ih x hx
    simp only [List.mem_cons] at hx
    rcases hx with rfl | hx
    · exact hp
    · exact ih x hx

/-- The characters of a piece are characters of the text. -/
theorem mem_of_mem_Split_single (d : Char) (s : List Char) :
    ∀ x ∈ strings.Split s [d], ∀ c ∈ x, c ∈ s := by
  refine Split_single_induction d (fun s l => ∀ x ∈ l, ∀ c ∈ x, c ∈ s) ?_ ?_ s
  · intro s _ x hx c hc
    simp only [List.mem_singleton] at hx
    subst hx
    exact hc
  · intro p q _ ih x hx c hc
    simp only [List.mem_cons] at hx
    rcases hx with rfl | hx
    · exact List.mem_append_left _ hc
    · exact List.mem_append_right _ (List.mem_cons_of_mem _ (ih x hx c hc))

theorem Contains_single (d : Char) (s : List Char) :
    strings.Contains s [d] = true ↔ d ∈ s := by
  by_cases hm : d ∈ s
  · obtain ⟨p, q, rfl, hp⟩ := List.eq_append_cons_of_mem hm
    simp [strings.Contains, Index_single_append d q p hp]
  · simp [strings.Contains, Index_single_of_not_mem d s hm, hm]

theorem mem_of_mem_TrimSpace (s : List Char) (c : Char) (h : c ∈ strings.TrimSpace s) :
    c ∈ s := by
  unfold strings.TrimSpace at h
  rw [List.mem_reverse] at h
  have h1 := (List.dropWhile_suffix strings.isSpace).subset h
  rw [List.mem_reverse] at h1
  exact (List.dropWhile_suffix strings.isSpace).subset h1

/-- `Atoi` gives no negative value on a text without a minus sign. -/
theorem Atoi_nonneg (s : List Char) (v : Int) (h : strconv.Atoi s = some v) (hm : '-' ∉ s) :
    0 ≤ v := by
  cases s with
  | nil => simp [strconv.Atoi] at h
  | cons c cs =>
    have hc : c ≠ '-' := fun e => hm (by simp [e])
    simp only [strconv.Atoi, hc, decide_False, or_false, Bool.false_eq_true, if_false] at h
    generalize (if c = '+' then cs else c :: cs) = digits at h
    by_cases hd : digits = []
    · simp [hd] at h
    · simp only [hd, if_false] at h
      cases hp : strconv.parseDigits digits 0 with
      | none => simp [hp] at h
      | some un =>
        simp only [hp] at h
        by_cases hr : (un : Int) ≥ 9223372036854775808
        · simp [hr] at h
        · simp only [hr, if_false, Option.some.injEq] at h
          omega

/-! ## `parseFieldRanges`: one token, and the bounds of the ranges -/

/-- On a non-empty text without comma the result is that of its only token. -/
theorem parseFieldRanges_single_token (s : List Char) (hs : s ≠ []) (hc : ',' ∉ s) :
    parseFieldRanges s
      = match parseToken s with
        | .error e => .error e
        | .ok none => .ok []
        | .ok (some r) => .ok [r] := by
  simp only [parseFieldRanges, hs, if_false, Split_single_of_not_mem ',' s hc, parseParts_cons]
  cases parseToken s with
  | error e => rfl
  | ok o =>
    cases o with
    | none => rfl
    | some r => rfl

/-- A token gives the malformed-range error exactly when it has two or more
hyphens after trimming. -/
theorem parseToken_badRangeFormat_iff (t : List Char) :
    (∃ p, parseToken t = .error (.badRangeFormat p)) ↔ 2 ≤ (strings.TrimSpace t).count '-' := by
  have hlen := length_Split_single '-' (strings.TrimSpace t)
  have hcont := Contains_single '-' (strings.TrimSpace t)
  have hcount : 1 ≤ (strings.TrimSpace t).count '-' ↔ '-' ∈ strings.TrimSpace t :=
    List.one_le_count_iff
  unfold parseToken
  simp only
  by_cases h1 : strings.TrimSpace t = []
  · simp [h1]
  · simp only [h1, if_false]
    by_cases h2 : strings.Contains (strings.TrimSpace t) ['-'] = true
    · simp only [h2, if_true]
      have hge : 1 ≤ (strings.TrimSpace t).count '-' := hcount.2 (hcont.1 h2)
      by_cases h3 : (strings.Split (strings.TrimSpace t) ['-']).length ≠ 2
      · rw [if_pos h3]
        constructor
        · intro _; omega
        · intro _; exact ⟨_, rfl⟩
      · rw [if_neg h3]
        constructor
        · rintro ⟨p, hp⟩
          exfalso
          revert hp
          split
          · simp
          · split
            · simp
            · split_ifs <;> simp
        · intro h; omega
    · simp only [h2, if_false, Bool.false_eq_true]
      have h0 : ¬ 1 ≤ (strings.TrimSpace t).count '-' := fun h => h2 (hcont.2 (hcount.1 h))
      constructor
      · rintro ⟨p, hp⟩
        exfalso
        revert hp
        split
        · simp
        · split_ifs <;> simp
      · intro h; omega

/-- The range contributed by a token starts at zero or above and ends at its
start or above. -/
theorem parseToken_bounds (t : List Char) (r : FieldRange) (h : parseToken t = .ok (some r)) :
    0 ≤ r.Start ∧ r.Start ≤ r.End := by
  unfold parseToken at h
  simp only at h
  by_cases h1 : strings.TrimSpace t = []
  · simp [h1] at h
  · simp only [h1, if_false] at h
    by_cases h2 : strings.Contains (strings.TrimSpace t) ['-'] = true
    · simp only [h2, if_true] at h
      by_cases h3 : (strings.Split (strings.TrimSpace t) ['-']).length ≠ 2
      · rw [if_pos h3] at h
        simp at h
      · rw [if_neg h3] at h
        have hl : (strings.Split (strings.TrimSpace t) ['-']).length = 2 := by omega
        obtain ⟨p0, p1, hsp⟩ := List.length_eq_two.1 hl
        have hp0 : '-' ∉ p0 :=
          not_mem_of_mem_Split_single '-' (strings.TrimSpace t) p0 (by simp [hsp])
        simp only [hsp, List.getD_cons_zero, List.getD_cons_succ] at h
        cases ha : strconv.Atoi (strings.TrimSpace p0) with
        | none => simp [ha] at h
        | some start =>
          simp only [ha] at h
          cases hb : strconv.Atoi (strings.TrimSpace p1) with
          | none => simp [hb] at h
          | some stop =>
            simp only [hb] at h
            by_cases h4 : start > stop
            · simp [h4] at h
            · simp only [h4, if_false, Except.ok.injEq, Option.some.injEq] at h
              subst h
              have := Atoi_nonneg _ start ha (fun hm => hp0 (mem_of_mem_TrimSpace p0 _ hm))
              simp only
              omega
    · simp only [h2, if_false, Bool.false_eq_true] at h
      cases ha : strconv.Atoi (strings.TrimSpace t) with
      | none => simp [ha] at h
      | some n =>
        simp only [ha] at h
        by_cases h4 : n < 1
        · simp [h4] at h
        · simp only [h4, if_false, Except.ok.injEq, Option.some.injEq] at h
          subst h
          simp only
          omega

/-- A property of every range that a token can contribute holds for all
ranges of a successful parse. -/
theorem parseParts_forall (P : FieldRange → Prop)
    (hP : ∀ t r, parseToken t = .ok (some r) → P r) :
    ∀ (parts : List (List Char)) (ranges rs : List FieldRange), (∀ r ∈ ranges, P r) →
    parseParts parts ranges = .ok rs → ∀ r ∈ rs, P r := by
  intro parts
  induction parts with
  | nil =>
    intro ranges rs hacc h
    simp only [parseParts, Except.ok.injEq] at h
    subst h
    exact hacc
  | cons t rest ih =>
    intro ranges rs hacc h
    rw [parseParts_cons] at h
    cases ht : parseToken t with
    | error e => simp [ht] at h
    | ok o =>
      cases o with
      | none =>
        simp only [ht] at h
        exact ih ranges rs hacc h
      | some r0 =>
        simp only [ht] at h
        refine ih (ranges ++ [r0]) rs ?_ h
        intro r hr
        simp only [List.mem_append, List.mem_singleton] at hr
        rcases hr with hr | hr
        · exact hacc r hr
        · subst hr; exact hP t r ht

/-- C12. For a non-empty text without comma, `parseFieldRanges` fails with the
malformed-range error exactly when the trimmed text contains two or more
hyphens; with exactly one hyphen (or none) that error does not occur. -/
theorem parseFieldRanges_badRangeFormat_iff (s : List Char) (hs : s ≠ []) (hc : ',' ∉ s) :
    (∃ p, parseFieldRanges s = .error (.badRangeFormat p))
      ↔ 2 ≤ (strings.TrimSpace s).count '-' := by
  rw [← parseToken_badRangeFormat_iff, parseFieldRanges_single_token s hs hc]
  cases parseToken s with
  | error e => simp
  | ok o =>
    cases o with
    | none => simp
    | some r => simp

theorem parseFieldRanges_badRangeFormat_iff_witness :
    ((∃ p, parseFieldRanges " 1-3-5 ".toList = .error (.badRangeFormat p))
      ↔ 2 ≤ (strings.TrimSpace " 1-3-5 ".toList).count '-') ∧
    2 ≤ (strings.TrimSpace " 1-3-5 ".toList).count '-' ∧
    parseFieldRanges " 1-3-5 ".toList = .error (.badRangeFormat "1-3-5".toList) :=
  ⟨parseFieldRanges_badRangeFormat_iff " 1-3-5 ".toList (by decide) (by decide),
    by decide, by decide⟩

/-- C14. The text `0-3` is parsed into the range from 0 to 3, whose start is
not a 1-based position: the range path lacks the check `< 1` that the path
for a single field number applies. -/
theorem parseFieldRanges_zero_start :
    parseFieldRanges "0-3".toList = .ok [⟨0, 3⟩] ∧
    parseFieldRanges "0".toList = .error (.nonPositiveField 0) ∧
    ¬ (1 ≤ (⟨0, 3⟩ : FieldRange).Start) := by
  decide

/-- C18. Every range of a successful `parseFieldRanges` satisfies
`0 ≤ Start ≤ End`: the pieces of a token split on the hyphen contain no
hyphen, so `Atoi` reads no negative number from them. -/
theorem parseFieldRanges_bounds (s : List Char) (rs : List FieldRange)
    (h : parseFieldRanges s = .ok rs) : ∀ r ∈ rs, 0 ≤ r.Start ∧ r.Start ≤ r.End := by
  by_cases hs : s = []
  · simp [parseFieldRanges, hs] at h
  · simp only [parseFieldRanges, hs, if_false] at h
    exact parseParts_forall (fun r => 0 ≤ r.Start ∧ r.Start ≤ r.End) parseToken_bounds _ [] rs
      (by simp) h

theorem parseFieldRanges_bounds_witness :
    parseFieldRanges "0-3, +5".toList = .ok [⟨0, 3⟩, ⟨5, 5⟩] ∧
    ∀ r ∈ [(⟨0, 3⟩ : FieldRange), ⟨5, 5⟩], 0 ≤ r.Start ∧ r.Start ≤ r.End :=
  ⟨by decide, parseFieldRanges_bounds "0-3, +5".toList _ (by decide)⟩

/-! ## White space around tokens -/

theorem dropWhile_append_of_all (p : Char → Bool) (t : List Char) : ∀ (w : List Char),
    (∀ c ∈ w, p c = true) → (w ++ t).dropWhile p = t.dropWhile p := by
  intro w
  induction w with
  | nil => intro _; rfl
  | cons c cs ih =>
    intro h
    have hc : p c = true := h c (List.mem_cons_self _ _)
    simp only [List.cons_append, List.dropWhile_cons, hc, if_true]
    exact ih (fun x hx => h x (List.mem_cons_of_mem _ hx))

/-- `TrimSpace` removes white space around a text that begins and ends with
a character that is no white space. -/
theorem TrimSpace_pad (w1 w2 x : List Char) (hw1 : ∀ c ∈ w1, strings.isSpace c = true)
    (hw2 : ∀ c ∈ w2, strings.isSpace c = true)
    (h1 : ∃ c x1, x = c :: x1 ∧ strings.isSpace c = false)
    (h2 : ∃ y e, x = y ++ [e] ∧ strings.isSpace e = false) :
    strings.TrimSpace (w1 ++ x ++ w2) = x := by
  unfold strings.TrimSpace
  have s1 : (w1 ++ x ++ w2).dropWhile strings.isSpace = x ++ w2 := by
    rw [List.append_assoc, dropWhile_append_of_all _ _ w1 hw1]
    obtain ⟨c, x1, rfl, hc⟩ := h1
    simp [List.dropWhile_cons, hc]
  have s2 : (x ++ w2).reverse.dropWhile strings.isSpace = x.reverse := by
    rw [List.reverse_append, dropWhile_append_of_all _ _ w2.reverse (by simpa using hw2)]
    obtain ⟨y, e, rfl, he⟩ := h2
    simp [List.dropWhile_cons, he]
  rw [s1, s2, List.reverse_reverse]

theorem decimal_head (n : Nat) : ∃ c x1, decimal n = c :: x1 ∧ isDigit c := by
  obtain ⟨h1, h2, _⟩ := decimal_spec n
  cases hd : decimal n with
  | nil => exact absurd hd h1
  | cons c cs => exact ⟨c, cs, rfl, h2 c (by simp [hd])⟩

theorem decimal_last (n : Nat) : ∃ y e, decimal n = y ++ [e] ∧ isDigit e := by
  obtain ⟨h1, h2, _⟩ := decimal_spec n
  rcases List.eq_nil_or_concat (decimal n) with h | ⟨y, e, h⟩
  · exact absurd h h1
  · rw [List.concat_eq_append] at h
    exact ⟨y, e, h, h2 e (by simp [h])⟩

/-- A token that trims to the decimal text of `n`. -/
theorem parseToken_of_TrimSpace_decimal (t : List Char) (n : Nat)
    (ht : strings.TrimSpace t = decimal n) (hn : (n : Int) ≤ maxInt) (h1 : 1 ≤ n) :
    parseToken t = .ok (some ⟨(n : Int), (n : Int)⟩) := by
  obtain ⟨d1, d2, _⟩ := decimal_spec n
  have hm : '-' ∉ decimal n := fun hm => not_isDigit_minus (d2 _ hm)
  have hcont : strings.Contains (decimal n) ['-'] = false := by
    simp [strings.Contains, Index_single_of_not_mem '-' _ hm]
  have h' : ¬ ((n : Int) < 1) := by omega
  simp only [parseToken, ht, d1, if_false, hcont, Bool.false_eq_true, Atoi_decimal n hn, h']

/-- A token that trims to `a`, white space, a hyphen, white space, `b`. -/
theorem parseToken_of_TrimSpace_range (t w4 w5 : List Char) (a b : Nat)
    (ht : strings.TrimSpace t = decimal a ++ w4 ++ '-' :: (w5 ++ decimal b))
    (hw4 : ∀ c ∈ w4, strings.isSpace c = true) (hw5 : ∀ c ∈ w5, strings.isSpace c = true)
    (ha : (a : Int) ≤ maxInt) (hb : (b : Int) ≤ maxInt) (hab : a ≤ b) :
    parseToken t = .ok (some ⟨(a : Int), (b : Int)⟩) := by
  obtain ⟨_, a2, _⟩ := decimal_spec a
  obtain ⟨_, b2, _⟩ := decimal_spec b
  have hsp : strings.isSpace '-' = false := by decide
  have hl : '-' ∉ decimal a ++ w4 := by
    intro hm
    rcases List.mem_append.1 hm with h | h
    · exact not_isDigit_minus (a2 _ h)
    · rw [hw4 _ h] at hsp; exact Bool.noConfusion hsp
  have hr : '-' ∉ w5 ++ decimal b := by
    intro hm
    rcases List.mem_append.1 hm with h | h
    · rw [hw5 _ h] at hsp; exact Bool.noConfusion hsp
    · exact not_isDigit_minus (b2 _ h)
  have hne : decimal a ++ w4 ++ '-' :: (w5 ++ decimal b) ≠ [] := by simp
  have hcont : strings.Contains (decimal a ++ w4 ++ '-' :: (w5 ++ decimal b)) ['-'] = true :=
    (Contains_single _ _).2 (by simp)
  have hsplit : strings.Split (decimal a ++ w4 ++ '-' :: (w5 ++ decimal b)) ['-']
      = [decimal a ++ w4, w5 ++ decimal b] := by
    rw [Split_cons_single '-' _ _ hl, Split_single_of_not_mem '-' _ hr]
  obtain ⟨ca, xa, hca, hda⟩ := decimal_head a
  obtain ⟨ya, ea, hea, hdea⟩ := decimal_last a
  obtain ⟨cb, xb, hcb, hdb⟩ := decimal_head b
  obtain ⟨yb, eb, heb, hdeb⟩ := decimal_last b
  have hta : strings.TrimSpace (decimal a ++ w4) = decimal a := by
    have h := TrimSpace_pad [] w4 (decimal a) (by simp) hw4
      ⟨ca, xa, hca, isSpace_of_isDigit _ hda⟩ ⟨ya, ea, hea, isSpace_of_isDigit _ hdea⟩
    simpa using h
  have htb : strings.TrimSpace (w5 ++ decimal b) = decimal b := by
    have h := TrimSpace_pad w5 [] (decimal b) hw5 (by simp)
      ⟨cb, xb, hcb, isSpace_of_isDigit _ hdb⟩ ⟨yb, eb, heb, isSpace_of_isDigit _ hdeb⟩
    simpa using h
  have h' : ¬ ((a : Int) > (b : Int)) := by omega
  simp only [parseToken, ht, hne, if_false, hcont, if_true, hsplit, List.length_cons,
    List.length_nil, List.getD_cons_zero, List.getD_cons_succ, hta, htb,
    Atoi_decimal a ha, Atoi_decimal b hb, h']
  simp

/-- The parse of a field number and a range, with white space around the
tokens and around the bounds. -/
theorem parseFieldRanges_padded (n a b : Nat) (w1 w2 w3 w4 w5 w6 : List Char)
    (hn1 : 1 ≤ n) (hab : a ≤ b) (hn : (n : Int) ≤ maxInt) (hb : (b : Int) ≤ maxInt)
    (hw1 : ∀ c ∈ w1, c = ' ') (hw2 : ∀ c ∈ w2, c = ' ') (hw3 : ∀ c ∈ w3, c = ' ')
    (hw4 : ∀ c ∈ w4, c = ' ') (hw5 : ∀ c ∈ w5, c = ' ') (hw6 : ∀ c ∈ w6, c = ' ') :
    parseFieldRanges (w1 ++ decimal n ++ w2 ++
        ',' :: (w3 ++ decimal a ++ w4 ++ '-' :: (w5 ++ decimal b ++ w6)))
      = .ok [⟨(n : Int), (n : Int)⟩, ⟨(a : Int), (b : Int)⟩] := by
  have sp : ∀ (w : List Char), (∀ c ∈ w, c = ' ') → ∀ c ∈ w, strings.isSpace c = true := by
    intro w h c hc
    rw [h c hc]
    decide
  have nc : ∀ (w : List Char), (∀ c ∈ w, c = ' ') → ',' ∉ w := by
    intro w h hm
    have := h _ hm
    revert this
    decide
  obtain ⟨_, n2, _⟩ := decimal_spec n
  obtain ⟨_, a2, _⟩ := decimal_spec a
  obtain ⟨_, b2, _⟩ := decimal_spec b
  have dc : ∀ (m : Nat), ',' ∉ decimal m := fun m hm =>
    not_isDigit_comma ((decimal_spec m).2.1 _ hm)
  have ha : (a : Int) ≤ maxInt := by omega
  have hc1 : ',' ∉ w1 ++ decimal n ++ w2 := by
    simp only [List.mem_append, not_or]
    exact ⟨⟨nc w1 hw1, dc n⟩, nc w2 hw2⟩
  have hc2 : ',' ∉ w3 ++ decimal a ++ w4 ++ '-' :: (w5 ++ decimal b ++ w6) := by
    simp only [List.mem_append, List.mem_cons, not_or]
    exact ⟨⟨⟨nc w3 hw3, dc a⟩, nc w4 hw4⟩, by decide, ⟨nc w5 hw5, dc b⟩, nc w6 hw6⟩
  obtain ⟨cn, xn, hcn, hdn⟩ := decimal_head n
  obtain ⟨yn, en, hen, hden⟩ := decimal_last n
  obtain ⟨ca, xa, hca, hda⟩ := decimal_head a
  obtain ⟨yb, eb, heb, hdeb⟩ := decimal_last b
  have t1 : strings.TrimSpace (w1 ++ decimal n ++ w2) = decimal n :=
    TrimSpace_pad w1 w2 (decimal n) (sp w1 hw1) (sp w2 hw2)
      ⟨cn, xn, hcn, isSpace_of_isDigit _ hdn⟩ ⟨yn, en, hen, isSpace_of_isDigit _ hden⟩
  have t2 : strings.TrimSpace (w3 ++ decimal a ++ w4 ++ '-' :: (w5 ++ decimal b ++ w6))
      = decimal a ++ w4 ++ '-' :: (w5 ++ decimal b) := by
    have h := TrimSpace_pad w3 w6 (decimal a ++ w4 ++ '-' :: (w5 ++ decimal b))
      (sp w3 hw3) (sp w6 hw6)
      ⟨ca, xa ++ w4 ++ '-' :: (w5 ++ decimal b), by simp [hca], isSpace_of_isDigit _ hda⟩
      ⟨decimal a ++ w4 ++ '-' :: (w5 ++ yb), eb, by simp [heb], isSpace_of_isDigit _ hdeb⟩
    rw [← h]
    congr 1
    simp
  have k1 := parseToken_of_TrimSpace_decimal _ n t1 hn hn1
  have k2 := parseToken_of_TrimSpace_range _ w4 w5 a b t2 (sp w4 hw4) (sp w5 hw5) ha hb hab
  have hne : w1 ++ decimal n ++ w2 ++
      ',' :: (w3 ++ decimal a ++ w4 ++ '-' :: (w5 ++ decimal b ++ w6)) ≠ [] := by simp
  simp only [parseFieldRanges, hne, if_false, Split_append_single,
    Split_single_of_not_mem ',' _ hc1, Split_single_of_not_mem ',' _ hc2, List.singleton_append,
    parseParts_cons, k1, k2]
  rfl

/-- C15. White space around the tokens and around the bounds of a range does
not change the parse: for `n ≥ 1` and `a ≤ b` that fit an `int` and texts
`w1 … w6` of space characters only, `parseFieldRanges` returns the range from
`n` to `n` and the range from `a` to `b`, as it does on the text without the
spaces. -/
theorem parseFieldRanges_spaces (n a b : Nat) (w1 w2 w3 w4 w5 w6 : List Char)
    (hn1 : 1 ≤ n) (hab : a ≤ b) (hn : (n : Int) ≤ maxInt) (hb : (b : Int) ≤ maxInt)
    (hw1 : ∀ c ∈ w1, c = ' ') (hw2 : ∀ c ∈ w2, c = ' ') (hw3 : ∀ c ∈ w3, c = ' ')
    (hw4 : ∀ c ∈ w4, c = ' ') (hw5 : ∀ c ∈ w5, c = ' ') (hw6 : ∀ c ∈ w6, c = ' ') :
    parseFieldRanges (w1 ++ decimal n ++ w2 ++
        ',' :: (w3 ++ decimal a ++ w4 ++ '-' :: (w5 ++ decimal b ++ w6)))
      = .ok [⟨(n : Int), (n : Int)⟩, ⟨(a : Int), (b : Int)⟩] ∧
    parseFieldRanges (decimal n ++ ',' :: (decimal a ++ '-' :: decimal b))
      = .ok [⟨(n : Int), (n : Int)⟩, ⟨(a : Int), (b : Int)⟩] := by
  refine ⟨parseFieldRanges_padded n a b w1 w2 w3 w4 w5 w6 hn1 hab hn hb hw1 hw2 hw3 hw4 hw5 hw6,
    ?_⟩
  have h := parseFieldRanges_padded n a b [] [] [] [] [] [] hn1 hab hn hb
    (by simp) (by simp) (by simp) (by simp) (by simp) (by simp)
  simpa using h

theorem parseFieldRanges_spaces_witness :
    parseFieldRanges " 1 ,  3 - 5 ".toList = .ok [⟨1, 1⟩, ⟨3, 5⟩] ∧
    parseFieldRanges "1,3-5".toList = .ok [⟨1, 1⟩, ⟨3, 5⟩] :=
  parseFieldRanges_spaces 1 3 5 " ".toList " ".toList "  ".toList " ".toList " ".toList
    " ".toList (by decide) (by decide) (by decide) (by decide) (by decide) (by decide)
    (by decide) (by decide) (by decide) (by decide)

/-! ## Texts of commas and white space -/

theorem TrimSpace_of_all_space (s : List Char) (h : ∀ c ∈ s, strings.isSpace c = true) :
    strings.TrimSpace s = [] := by
  unfold strings.TrimSpace
  rw [List.dropWhile_eq_nil_iff.2 h]
  rfl

theorem parseToken_of_TrimSpace_nil (t : List Char) (h : strings.TrimSpace t = []) :
    parseToken t = .ok none := by
  simp [parseToken, h]

theorem parseParts_all_none : ∀ (parts : List (List Char)) (ranges : List FieldRange),
    (∀ t ∈ parts, parseToken t = .ok none) → parseParts parts ranges = .ok ranges := by
  intro parts
  induction parts with
  | nil => intro ranges _; rfl
  | cons t rest ih =>
    intro ranges h
    rw [parseParts_cons, h t (List.mem_cons_self _ _)]
    exact ih ranges (fun x hx => h x (List.mem_cons_of_mem _ hx))

/-- C20. On a text of commas and white space only, with at least one comma,
`parseFieldRanges` succeeds with an empty list of ranges, and `processLine`
with the parsed list returns every record that is not suppressed unchanged,
with `emit = true`. -/
theorem parseFieldRanges_commas_only (s : List Char)
    (hs : ∀ c ∈ s, c = ',' ∨ strings.isSpace c = true) (hc : ',' ∈ s) :
    parseFieldRanges s = .ok [] ∧
    ∀ (fuel : Nat) (line : List Char) (config : Config),
      parseFieldRanges s = .ok config.FieldRanges → ¬ suppressed line config →
      processLine fuel line config = some (line, true) := by
  have hne : s ≠ [] := fun e => by simp [e] at hc
  have hparse : parseFieldRanges s = .ok [] := by
    simp only [parseFieldRanges, hne, if_false]
    apply parseParts_all_none
    intro t ht
    apply parseToken_of_TrimSpace_nil
    apply TrimSpace_of_all_space
    intro c hct
    rcases hs c (mem_of_mem_Split_single ',' s t ht c hct) with h | h
    · subst h
      exact absurd hct (not_mem_of_mem_Split_single ',' s t ht)
    · exact h
  refine ⟨hparse, ?_⟩
  intro fuel line config hcfg hsup
  rw [hparse] at hcfg
  have hnil : config.FieldRanges = [] := by
    simp only [Except.ok.injEq] at hcfg
    exact hcfg.symm
  have h1 : (config.Separated && !strings.Contains line config.Delimiter) = false := by
    unfold suppressed at hsup
    cases hS : config.Separated <;> cases hC : strings.Contains line config.Delimiter <;>
      simp_all
  simp [processLine, h1, hnil]

theorem parseFieldRanges_commas_only_witness :
    parseFieldRanges " , ,".toList = .ok [] ∧
    processLine 0 "a\tb".toList ⟨" , ,".toList, "\t".toList, true, []⟩
      = some ("a\tb".toList, true) :=
  ⟨(parseFieldRanges_commas_only " , ,".toList (by decide) (by decide)).1,
    (parseFieldRanges_commas_only " , ,".toList (by decide) (by decide)).2 0 "a\tb".toList
      ⟨" , ,".toList, "\t".toList, true, []⟩ (by decide) (by decide)⟩

/-! ## Fields beyond the record, and all fields -/

theorem mem_allMembers : ∀ (ranges : List FieldRange) (j : Int), j ∈ allMembers ranges →
    ∃ r ∈ ranges, r.Start ≤ j ∧ j ≤ r.End := by
  intro ranges
  induction ranges with
  | nil => intro j h; simp [allMembers] at h
  | cons r rs ih =>
    intro j h
    simp only [allMembers, List.mem_append, rangeMembers, mem_countFrom] at h
    rcases h with h | h
    · exact ⟨r, List.mem_cons_self _ _, by omega, by omega⟩
    · obtain ⟨q, hq, h1, h2⟩ := ih j h
      exact ⟨q, List.mem_cons_of_mem _ hq, h1, h2⟩

/-- A record that is not suppressed, with a non-empty field list all of whose
ranges start beyond the parts of the record and whose counting loops finish,
yields the empty output and `emit = true`. -/
theorem processLine_beyond_of_loopFinishes (fuel : Nat) (line : List Char) (config : Config)
    (hsup : ¬ suppressed line config) (hne : config.FieldRanges ≠ [])
    (hfin : ∀ r ∈ config.FieldRanges, loopFinishes r)
    (hfuel : enoughFuel config.FieldRanges ≤ fuel)
    (hlen : ((strings.Split line config.Delimiter).length : Int) ≤ maxInt)
    (hbeyond : ∀ r ∈ config.FieldRanges,
      ((strings.Split line config.Delimiter).length : Int) < r.Start) :
    processLine fuel line config = some ([], true) := by
  rw [processLine_of_loopFinishes fuel line config hsup hne hfin hfuel hlen]
  have hsel : selectedParts (strings.Split line config.Delimiter)
      (firstOccurrences (allMembers config.FieldRanges)) = [] := by
    unfold selectedParts
    rw [List.filter_eq_nil_iff.2, List.map_nil]
    intro p hp
    obtain ⟨r, hr, h1, _⟩ := mem_allMembers _ p ((mem_firstOccurrences _ p).1 hp)
    have := hbeyond r hr
    simp only [decide_eq_true_eq]
    omega
  rw [hsel]
  rfl

/-- C17. With the record `a,b` (two parts, containing the delimiter) and the
field list `9223372036854775807`, whose only range starts beyond the parts,
`processLine` does not return: the counting loop of `getFields` never
finishes, whatever the step budget.  The claim asks for the empty output with
`emit = true`. -/
theorem processLine_beyond_maxInt :
    (∀ r ∈ [(⟨maxInt, maxInt⟩ : FieldRange)],
      ((strings.Split "a,b".toList ",".toList).length : Int) < r.Start) ∧
    ¬ suppressed "a,b".toList ⟨[], ",".toList, true, [⟨maxInt, maxInt⟩]⟩ ∧
    ∀ fuel : Nat,
      processLine fuel "a,b".toList ⟨[], ",".toList, true, [⟨maxInt, maxInt⟩]⟩ = none := by
  refine ⟨by decide, by decide, ?_⟩
  intro fuel
  have h := getFieldsLoop_maxInt fuel maxInt [] (fun _ => false) (le_refl _)
  have hc : strings.Contains ['a', ',', 'b'] [','] = true := by decide
  simp [processLine, getFields, getFieldsRanges, h, hc]

/-- An occurrence found by `Index`: the text is what precedes it, the
separator, and what follows. -/
theorem Index_some_spec (sep : List Char) : ∀ (s : List Char) (m : Nat),
    strings.Index s sep = some m → s.take m ++ sep ++ s.drop (m + sep.length) = s := by
  intro s
  induction s with
  | nil =>
    intro m h
    cases sep with
    | nil => simp
    | cons a as => simp [strings.Index, List.isPrefixOf] at h
  | cons c cs ih =>
    intro m h
    simp only [strings.Index] at h
    by_cases hp : sep.isPrefixOf (c :: cs) = true
    · simp only [hp, if_true, Option.some.injEq] at h
      subst h
      have := List.prefix_iff_eq_append.1 (List.isPrefixOf_iff_prefix.1 hp)
      simpa using this
    · simp only [hp, if_false, Bool.false_eq_true, Option.map_eq_some'] at h
      obtain ⟨m1, hm1, rfl⟩ := h
      have h1 := ih m1 hm1
      have e : m1 + 1 + sep.length = (m1 + sep.length) + 1 := by omega
      rw [e]
      simp only [List.take_succ_cons, List.drop_succ_cons, List.cons_append, List.cons.injEq,
        true_and]
      exact h1

theorem genSplit_ne_nil (sep : List Char) : ∀ (n : Nat) (s : List Char),
    strings.genSplit n s sep ≠ [] := by
  intro n s
  cases n with
  | zero => simp [strings.genSplit]
  | succ n =>
    simp only [strings.genSplit]
    split <;> simp

theorem Join_cons_of_ne_nil (a sep : List Char) (rest : List (List Char)) (h : rest ≠ []) :
    strings.Join (a :: rest) sep = a ++ sep ++ strings.Join rest sep := by
  cases rest with
  | nil => exact absurd rfl h
  | cons b rest => rfl

/-- Joining the pieces of a split with the separator gives the text back. -/
theorem Join_genSplit (sep : List Char) : ∀ (n : Nat) (s : List Char),
    strings.Join (strings.genSplit n s sep) sep = s := by
  intro n
  induction n with
  | zero => intro s; rfl
  | succ n ih =>
    intro s
    simp only [strings.genSplit]
    cases hi : strings.Index s sep with
    | none => rfl
    | some m =>
      simp only
      rw [Join_cons_of_ne_nil _ _ _ (genSplit_ne_nil sep _ _), ih]
      exact Index_some_spec sep s m hi

theorem Join_Split (s sep : List Char) (hsep : sep ≠ []) :
    strings.Join (strings.Split s sep) sep = s := by
  simp only [strings.Split, hsep, if_false]
  exact Join_genSplit sep _ s

theorem countFrom_add (n m : Nat) : ∀ (i : Int),
    countFrom i (n + m) = countFrom i n ++ countFrom (i + n) m := by
  induction n with
  | zero => intro i; simp [countFrom]
  | succ n ih =>
    intro i
    have e : n + 1 + m = (n + m) + 1 := by omega
    rw [e]
    simp only [countFrom, List.cons_append, ih (i + 1)]
    congr 3
    push_cast
    omega

/-- The positions `1 … k` with `k ≥ len(parts)` select all parts. -/
theorem selectedParts_all (parts : List (List Char)) (k : Nat) (hk : parts.length ≤ k) :
    selectedParts parts (countFrom 1 k) = parts := by
  obtain ⟨m, rfl⟩ : ∃ m, k = parts.length + m := ⟨k - parts.length, by omega⟩
  rw [countFrom_add]
  unfold selectedParts
  rw [List.filter_append, List.map_append]
  have h1 : (countFrom 1 parts.length).filter
      (fun p => decide (1 ≤ p ∧ p ≤ (parts.length : Int))) = countFrom 1 parts.length := by
    rw [List.filter_eq_self]
    intro p hp
    rw [mem_countFrom] at hp
    simp only [decide_eq_true_eq]
    omega
  have h2 : (countFrom (1 + (parts.length : Int)) m).filter
      (fun p => decide (1 ≤ p ∧ p ≤ (parts.length : Int))) = [] := by
    rw [List.filter_eq_nil_iff]
    intro p hp
    rw [mem_countFrom] at hp
    simp only [decide_eq_true_eq]
    omega
  rw [h1, h2, List.map_nil, List.append_nil]
  have h3 := map_countFrom_getD parts parts.length 0 (by omega)
  simpa using h3

/-- Selecting the fields `1 … k` with `k` at least the number of parts and
below `maxInt` returns a record that is not suppressed unchanged, for a
non-empty delimiter. -/
theorem processLine_all_of_lt_maxInt (fuel : Nat) (line fields delim : List Char)
    (flag : Bool) (k : Int) (hdelim : delim ≠ [])
    (hsup : ¬ suppressed line ⟨fields, delim, flag, [⟨1, k⟩]⟩)
    (hk : ((strings.Split line delim).length : Int) ≤ k) (hmax : k < maxInt)
    (hfuel : k.toNat < fuel) :
    processLine fuel line ⟨fields, delim, flag, [⟨1, k⟩]⟩ = some (line, true) := by
  have hfin : ∀ r ∈ [(⟨1, k⟩ : FieldRange)], loopFinishes r := by
    intro r hr
    simp only [List.mem_singleton] at hr
    subst hr
    unfold loopFinishes isInt minInt
    unfold maxInt at hmax ⊢
    simp only
    omega
  have hfu : enoughFuel [(⟨1, k⟩ : FieldRange)] ≤ fuel := by
    simp only [enoughFuel]
    omega
  have h := processLine_of_loopFinishes fuel line ⟨fields, delim, flag, [⟨1, k⟩]⟩ hsup
    (by simp) hfin hfu (by simp only; omega)
  rw [h]
  have e : (k + 1 - 1).toNat = k.toNat := by omega
  have hall := selectedParts_all (strings.Split line delim) k.toNat (by omega)
  simp only [allMembers, rangeMembers, List.append_nil, e,
    firstOccurrences_of_nodup _ (nodup_countFrom _ _), hall, Join_Split line delim hdelim]

/-- C19. With the record `a,b` and the field list `1-9223372036854775807`,
which covers all parts, `processLine` does not return: the counting loop of
`getFields` up to `maxInt` never finishes, whatever the step budget.  The
claim asks for the record itself with `emit = true`. -/
theorem processLine_all_maxInt :
    parseFieldRanges "1-9223372036854775807".toList = .ok [⟨1, maxInt⟩] ∧
    ((strings.Split "a,b".toList ",".toList).length : Int) ≤ maxInt ∧
    ¬ suppressed "a,b".toList ⟨[], ",".toList, false, [⟨1, maxInt⟩]⟩ ∧
    ∀ fuel : Nat,
      processLine fuel "a,b".toList ⟨[], ",".toList, false, [⟨1, maxInt⟩]⟩ = none := by
  refine ⟨by decide, by decide, by decide, ?_⟩
  intro fuel
  have h := getFieldsLoop_maxInt fuel 1 [] (fun _ => false) (by decide)
  simp [processLine, getFields, getFieldsRanges, h]

/-! ## The cases of `main_test.go` -/

theorem test_parseFieldRanges_single :
    parseFieldRanges "1,3,5".toList = .ok [⟨1, 1⟩, ⟨3, 3⟩, ⟨5, 5⟩] := by decide

theorem test_parseFieldRanges_ranges :
    parseFieldRanges "1-3,5-7".toList = .ok [⟨1, 3⟩, ⟨5, 7⟩] := by decide

theorem test_parseFieldRanges_mixed :
    parseFieldRanges "1,3-5,7,9-10".toList = .ok [⟨1, 1⟩, ⟨3, 5⟩, ⟨7, 7⟩, ⟨9, 10⟩] := by
  decide

theorem test_parseFieldRanges_spaces :
    parseFieldRanges " 1 , 3-5 , 7 ".toList = .ok [⟨1, 1⟩, ⟨3, 5⟩, ⟨7, 7⟩] := by decide

theorem test_parseFieldRanges_empty :
    parseFieldRanges "".toList = .error .emptyFields := by decide

theorem test_parseFieldRanges_bad_range :
    parseFieldRanges "1-3-5".toList = .error (.badRangeFormat "1-3-5".toList) := by decide

theorem test_parseFieldRanges_negative :
    parseFieldRanges "-1".toList = .error (.badRangeStart []) := by decide

theorem test_parseFieldRanges_start_after_end :
    parseFieldRanges "5-3".toList = .error (.startAfterEnd "5-3".toList) := by decide

theorem test_getFields_single :
    getFields 2 [⟨1, 1⟩, ⟨3, 3⟩, ⟨5, 5⟩] = some [1, 3, 5] := by decide

theorem test_getFields_ranges :
    getFields 4 [⟨1, 3⟩, ⟨5, 7⟩] = some [1, 2, 3, 5, 6, 7] := by decide

theorem test_getFields_overlapping :
    getFields 6 [⟨1, 5⟩, ⟨3, 7⟩] = some [1, 2, 3, 4, 5, 6, 7] := by decide

theorem test_getFields_repeated :
    getFields 4 [⟨1, 1⟩, ⟨1, 1⟩, ⟨3, 5⟩] = some [1, 3, 4, 5] := by decide

theorem test_processLine_fields_1_3 :
    processLine 2 "a\tb\tc\td".toList ⟨[], "\t".toList, false, [⟨1, 1⟩, ⟨3, 3⟩]⟩
      = some ("a\tc".toList, true) := by decide

theorem test_processLine_range_2_4 :
    processLine 4 "a\tb\tc\td\te".toList ⟨[], "\t".toList, false, [⟨2, 4⟩]⟩
      = some ("b\tc\td".toList, true) := by decide

theorem test_processLine_out_of_bounds :
    processLine 2 "a\tb".toList ⟨[], "\t".toList, false, [⟨1, 1⟩, ⟨5, 5⟩]⟩
      = some ("a".toList, true) := by decide

theorem test_processLine_no_fields :
    processLine 0 "a\tb\tc".toList ⟨[], "\t".toList, false, []⟩
      = some ("a\tb\tc".toList, true) := by decide

theorem test_processLine_separated_without :
    processLine 2 "abc".toList ⟨[], "\t".toList, true, [⟨1, 1⟩]⟩ = some ([], false) := by
  decide

theorem test_processLine_separated_with :
    processLine 2 "a\tb".toList ⟨[], "\t".toList, true, [⟨1, 1⟩]⟩
      = some ("a".toList, true) := by decide

theorem test_processLine_comma :
    processLine 2 "a,b,c,d".toList ⟨[], ",".toList, false, [⟨1, 1⟩, ⟨4, 4⟩]⟩
      = some ("a,d".toList, true) := by decide

end CutUtility
